import Mathlib

/-!
# budgetwarrior: the colon-delimited record codec (`src/src/data.cpp`)

A shallow embedding of the record reader and writer of budgetwarrior.
A `std::string` is a `List Char`, a `std::vector<std::string>` is a list of
them.  The two loops of `parse_input` and `parse_output` are embedded as they
are written: a search position, `std::string::find` from that position, and
`std::string::replace` at the position found.
-/

namespace budget

/-! ## String primitives of the standard library -/

/-- The four characters that stand for the delimiter inside a stored token:
a backslash, `x`, `3` and `A`. -/
def escape_seq : List Char := ['\\', 'x', '3', 'A']

/-- Search of `pat` in the text `s`, which starts at index `i` of the whole
string: the index of the first position of `s` at which `pat` starts. -/
def find_from (pat : List Char) : List Char → Nat → Option Nat
  | [], i => if pat.isPrefixOf [] then some i else none
  | c :: cs, i => if pat.isPrefixOf (c :: cs) then some i else find_from pat cs (i + 1)

/-- `std::string::find(pat, pos)`: the first index `p ≥ pos` at which `pat`
occurs in `s`, and `none` for `npos`. -/
def string_find (s pat : List Char) (pos : Nat) : Option Nat :=
  if pos ≤ s.length then find_from pat (s.drop pos) pos else none

/-- `std::string::replace(pos, n, r)`: the `n` characters from `pos` give way
to `r`. -/
def string_replace (s : List Char) (pos n : Nat) (r : List Char) : List Char :=
  s.take pos ++ r ++ s.drop (pos + n)

/-! ## `parse_input` and `parse_output` -/

/-- The `while` loop of `parse_input` on one part: find the escape sequence
from `start_pos`, put `:` in its place, go on one character further. -/
def parse_input_loop (part : List Char) (start_pos : Nat) : List Char :=
  match h : string_find part escape_seq start_pos with
  | none => part
  | some p => parse_input_loop (string_replace part p 4 [':']) (p + 1)
termination_by part.length - start_pos
decreasing_by
  have key : ∀ (s : List Char) (i q : Nat), find_from escape_seq s i = some q →
      i ≤ q ∧ q + 4 ≤ i + s.length := by
    intro s
    induction s with
    | nil => intro i q hq; simp [find_from, escape_seq] at hq
    | cons c cs ih =>
      intro i q hq
      simp only [find_from] at hq
      split at hq
      · rename_i hp
        have hl := (List.isPrefixOf_iff_prefix.mp hp).length_le
        simp only [escape_seq, List.length_cons, List.length_nil] at hl
        simp only [Option.some.injEq] at hq
        simp only [List.length_cons]
        omega
      · have := ih (i + 1) q hq
        simp only [List.length_cons]
        omega
  unfold string_find at h
  split at h
  · have hk := key _ _ _ h
    simp only [string_replace, List.length_append, List.length_take, List.length_drop,
      List.length_cons, List.length_nil] at hk ⊢
    omega
  · simp at h

/-- The body of the `for` loop of `parse_input`: one part, searched from 0. -/
def parse_input_part (part : List Char) : List Char :=
  parse_input_loop part 0

/-- `parse_input`: every part of the vector is unescaped in place. -/
def parse_input (parts : List (List Char)) : List (List Char) :=
  parts.map parse_input_part

/-- The `while` loop of `parse_output` on one part: find `:` from `start_pos`,
put the escape sequence in its place, go on four characters further. -/
def parse_output_loop (part : List Char) (start_pos : Nat) : List Char :=
  match h : string_find part [':'] start_pos with
  | none => part
  | some p => parse_output_loop (string_replace part p 1 escape_seq) (p + 4)
termination_by part.length - start_pos
decreasing_by
  have key : ∀ (s : List Char) (i q : Nat), find_from [':'] s i = some q →
      i ≤ q ∧ q + 1 ≤ i + s.length := by
    intro s
    induction s with
    | nil => intro i q hq; simp [find_from] at hq
    | cons c cs ih =>
      intro i q hq
      simp only [find_from] at hq
      split at hq
      · simp only [Option.some.injEq] at hq
        simp only [List.length_cons]
        omega
      · have := ih (i + 1) q hq
        simp only [List.length_cons]
        omega
  unfold string_find at h
  split at h
  · have hk := key _ _ _ h
    simp only [string_replace, escape_seq, List.length_append, List.length_take,
      List.length_drop, List.length_cons, List.length_nil] at hk ⊢
    omega
  · simp at h

/-- The escaping of one part in `parse_output` (the copy `part` of the loop
variable, searched from 0). -/
def parse_output_part (part : List Char) : List Char :=
  parse_output_loop part 0

/-- The `for` loop of `parse_output` from a state `(output, sep)`. -/
def parse_output_go : List (List Char) → List Char → List Char → List Char
  | [], output, _ => output
  | part :: rest, output, sep =>
    parse_output_go rest (output ++ sep ++ parse_output_part part) [':']

/-- `parse_output`: the escaped parts, a `:` before each but the first. -/
def parse_output (parts : List (List Char)) : List Char :=
  parse_output_go parts [] []

/-- `pre_clean_number`: the erase-remove of every `,`, then of every space. -/
def pre_clean_number (str : List Char) : List Char :=
  (str.filter (fun c => c != ',')).filter (fun c => c != ' ')

/-! ## `std::from_chars` and `std::to_chars` (base 10, integer types) -/

/-- The error codes of `<charconv>`; `ok` is `std::errc()`. -/
inductive errc
  | ok
  | invalid_argument
  | result_out_of_range
  | value_too_large
  deriving DecidableEq, Repr

/-- Largest `size_t` (64 bits). -/
def size_t_max : Nat := 2 ^ 64 - 1
/-- Smallest `int64_t`. -/
def int64_min : Int := -(2 ^ 63)
/-- Largest `int64_t`. -/
def int64_max : Int := 2 ^ 63 - 1
/-- Smallest `int32_t`. -/
def int32_min : Int := -(2 ^ 31)
/-- Largest `int32_t`. -/
def int32_max : Int := 2 ^ 31 - 1

/-- A decimal digit, `'0'` to `'9'`. -/
def is_digit (c : Char) : Bool :=
  decide (48 ≤ c.toNat) && decide (c.toNat ≤ 57)

/-- The number a decimal digit stands for. -/
def digit_value (c : Char) : Nat :=
  c.toNat - 48

/-- The number a run of decimal digits stands for, most significant first. -/
def digits_value (ds : List Char) : Nat :=
  ds.foldl (fun acc c => 10 * acc + digit_value c) 0

/-- The outcome of `std::from_chars`: how many characters were consumed
(`ptr - first`), the error code, and the value stored on success. -/
structure from_chars_result (α : Type) where
  consumed : Nat
  ec : errc
  value : Option α
  deriving DecidableEq, Repr

/-- `std::from_chars` into an unsigned type of maximum `hi`: the longest run
of digits is consumed; no digit is `invalid_argument` (nothing consumed), a
number above `hi` is `result_out_of_range` (the digits consumed). -/
def from_chars_unsigned (hi : Nat) (s : List Char) : from_chars_result Nat :=
  let ds := s.takeWhile is_digit
  if ds = [] then ⟨0, errc.invalid_argument, none⟩
  else if digits_value ds ≤ hi then ⟨ds.length, errc.ok, some (digits_value ds)⟩
  else ⟨ds.length, errc.result_out_of_range, none⟩

/-- `std::from_chars` into a signed type of range `lo..hi`: as the unsigned
one, after one optional leading `-` (a `+` is not recognised). -/
def from_chars_signed (lo hi : Int) (s : List Char) : from_chars_result Int :=
  let neg : Bool := s.head? == some '-'
  let body := if neg then s.tail else s
  let ds := body.takeWhile is_digit
  let v : Int := if neg then -(digits_value ds : Int) else (digits_value ds : Int)
  let n := if neg then ds.length + 1 else ds.length
  if ds = [] then ⟨0, errc.invalid_argument, none⟩
  else if lo ≤ v ∧ v ≤ hi then ⟨n, errc.ok, some v⟩
  else ⟨n, errc.result_out_of_range, none⟩

/-- The decimal text of a natural number, most significant digit first. -/
def decimal_digits (n : Nat) : List Char :=
  if n = 0 then ['0'] else ((Nat.digits 10 n).map Nat.digitChar).reverse

/-- The decimal text of an integer: a `-` before the digits of a negative
one. -/
def decimal_text (v : Int) : List Char :=
  if v < 0 then '-' :: decimal_digits v.natAbs else decimal_digits v.natAbs

/-- `std::to_chars` into a buffer of `buffer_size` characters: the decimal
text, or `value_too_large` when it does not fit. -/
def to_chars (buffer_size : Nat) (v : Int) : Except errc (List Char) :=
  if (decimal_text v).length ≤ buffer_size then Except.ok (decimal_text v)
  else Except.error errc.value_too_large

/-! ## Exceptions -/

/-- What a read or a write can throw: `std::out_of_range` (from
`std::vector::at`), `budget::budget_exception` with its message, or another
exception raised by the date and money conversions. -/
inductive exception
  | out_of_range
  | budget_exception (message : List Char)
  | other (what : List Char)
  deriving DecidableEq, Repr

/-- The message of a failed numeric read: the token between double quotes,
then ` is not a valid ` and the name of the type. -/
def not_valid (token : List Char) (type_name : String) : exception :=
  exception.budget_exception
    (['"'] ++ token ++ ['"'] ++ " is not a valid ".toList ++ type_name.toList)

/-- The message of a failed numeric write. -/
def not_convertible (v : Int) : exception :=
  exception.budget_exception
    (['"'] ++ decimal_text v ++ ['"'] ++ " cant\x27 be converted to string".toList)

/-! ## `split` -/

/-- Modelled from the spec: `split` (declared in `utils.hpp`, which is not
among the sources) cuts the line at every delimiter, so that `k` delimiters
give `k + 1` tokens, empty ones included. -/
def split (delim : Char) : List Char → List (List Char)
  | [] => [[]]
  | c :: cs =>
    if c = delim then [] :: split delim cs
    else
      match split delim cs with
      | [] => [[c]]
      | t :: ts => (c :: t) :: ts

/-! ## `data_reader` -/

/-- The state of a `data_reader`: the fields and the cursor. -/
structure data_reader where
  parts : List (List Char)
  current : Nat
  deriving DecidableEq, Repr

/-- `parts.at(i)`: the element, or `std::out_of_range`. -/
def parts_at (parts : List (List Char)) (i : Nat) : Except exception (List Char) :=
  match parts[i]? with
  | some part => Except.ok part
  | none => Except.error exception.out_of_range

/-- `data_reader::parse`. -/
def data_reader.parse (_r : data_reader) (data : List Char) : data_reader :=
  { parts := parse_input (split ':' data), current := 0 }

/-- The shared shape of the three integer reads: the cleaned part goes
through `from_chars`; an error code or an unconsumed rest throws, else the
cursor moves on. -/
def read_number {α : Type} (from_chars : List Char → from_chars_result α)
    (type_name : String) (r : data_reader) : Except exception α × data_reader :=
  match parts_at r.parts r.current with
  | Except.error e => (Except.error e, r)
  | Except.ok token =>
    let part := pre_clean_number token
    let res := from_chars part
    if res.ec ≠ errc.ok ∨ res.consumed ≠ part.length then
      (Except.error (not_valid token type_name), r)
    else
      match res.value with
      | some value => (Except.ok value, { r with current := r.current + 1 })
      | none => (Except.error (not_valid token type_name), r)

/-- `operator>>(size_t&)`. -/
def data_reader.read_size_t (r : data_reader) : Except exception Nat × data_reader :=
  read_number (from_chars_unsigned size_t_max) "size_t" r

/-- `operator>>(int64_t&)`. -/
def data_reader.read_int64_t (r : data_reader) : Except exception Int × data_reader :=
  read_number (from_chars_signed int64_min int64_max) "int64_t" r

/-- `operator>>(int32_t&)`. -/
def data_reader.read_int32_t (r : data_reader) : Except exception Int × data_reader :=
  read_number (from_chars_signed int32_min int32_max) "int32_t" r

/-- `operator>>(bool&)`: a `size_t` is parsed, and `value = temp` makes it
`true` unless it is 0. -/
def data_reader.read_bool (r : data_reader) : Except exception Bool × data_reader :=
  match read_number (from_chars_unsigned size_t_max) "bool" r with
  | (Except.ok temp, r') => (Except.ok (temp != 0), r')
  | (Except.error e, r') => (Except.error e, r')

/-- `operator>>(double&)`; `strtod` gives the value and how many characters
it went over (`end - start`). -/
def data_reader.read_double {D : Type} (strtod : List Char → D × Nat) (r : data_reader) :
    Except exception D × data_reader :=
  match parts_at r.parts r.current with
  | Except.error e => (Except.error e, r)
  | Except.ok token =>
    let part := pre_clean_number token
    let res := strtod part
    if res.2 ≠ part.length then (Except.error (not_valid token "double"), r)
    else (Except.ok res.1, { r with current := r.current + 1 })

/-- `operator>>(std::string&)`. -/
def data_reader.read_string (r : data_reader) : Except exception (List Char) × data_reader :=
  match parts_at r.parts r.current with
  | Except.error e => (Except.error e, r)
  | Except.ok token => (Except.ok token, { r with current := r.current + 1 })

/-- The shape of `operator>>(date&)` and `operator>>(money&)`: the token goes
through a conversion (`date_from_string`, `money_from_string`) which may
throw; the cursor moves on when it returns. -/
def data_reader.read_with {V : Type} (from_string : List Char → Except exception V)
    (r : data_reader) : Except exception V × data_reader :=
  match parts_at r.parts r.current with
  | Except.error e => (Except.error e, r)
  | Except.ok token =>
    match from_string token with
    | Except.error e => (Except.error e, r)
    | Except.ok value => (Except.ok value, { r with current := r.current + 1 })

/-- `data_reader::more`. -/
def data_reader.more (r : data_reader) : Bool :=
  decide (r.current < r.parts.length)

/-- `data_reader::peek`, a `const` member: what it returns or throws, and the
reader, which it cannot change. -/
def data_reader.peek (r : data_reader) : Except exception (List Char) × data_reader :=
  (parts_at r.parts r.current, r)

/-- `data_reader::skip`. -/
def data_reader.skip (r : data_reader) : data_reader :=
  if r.more then { r with current := r.current + 1 } else r

/-! ## `data_writer` -/

/-- The state of a `data_writer`: the tokens written so far. -/
structure data_writer where
  parts : List (List Char)
  deriving DecidableEq, Repr

/-- The shape of the four numeric writes: `to_chars` into a buffer of 64
characters, the text appended to the parts, or a `budget_exception`. -/
def write_number (w : data_writer) (v : Int) : Except exception data_writer :=
  match to_chars 64 v with
  | Except.ok token => Except.ok { parts := w.parts ++ [token] }
  | Except.error _ => Except.error (not_convertible v)

/-- `operator<<(const bool&)`: `size_t temp = value`, then as a `size_t`. -/
def data_writer.write_bool (w : data_writer) (value : Bool) : Except exception data_writer :=
  write_number w (if value then 1 else 0)

/-- `operator<<(const size_t&)`. -/
def data_writer.write_size_t (w : data_writer) (value : Nat) : Except exception data_writer :=
  write_number w (value : Int)

/-- `operator<<(const int64_t&)`. -/
def data_writer.write_int64_t (w : data_writer) (value : Int) : Except exception data_writer :=
  write_number w value

/-- `operator<<(const int32_t&)`. -/
def data_writer.write_int32_t (w : data_writer) (value : Int) : Except exception data_writer :=
  write_number w value

/-- `operator<<(const std::string&)`. -/
def data_writer.write_string (w : data_writer) (value : List Char) : data_writer :=
  { parts := w.parts ++ [value] }

/-- The shape of `operator<<(const date&)` and `operator<<(const money&)`:
the text of the value (`date_to_string`, `to_string`) is appended. -/
def data_writer.write_with {V : Type} (to_text : V → List Char) (w : data_writer)
    (value : V) : data_writer :=
  { parts := w.parts ++ [to_text value] }

/-- `data_writer::to_string`. -/
def data_writer.to_string (w : data_writer) : List Char :=
  parse_output w.parts

/-! ## `filter_iterator` and `filter_view` (`src/include/filter_iterator.hpp`)

An iterator of the underlying container is an index into the list of its
elements, from 0 to the length (the end). -/

/-- The loop `while (first != last && !filter(*first)) ++first`, with `rest`
the elements from `first` on; the position where it stops.  At the end of the
container there is no element to test, and the loop is taken to stop there. -/
def skip_while {α : Type} (filter : α → Bool) (last : Nat) : List α → Nat → Nat
  | [], first => first
  | x :: rest, first =>
    if first ≠ last ∧ !filter x then skip_while filter last rest (first + 1) else first

/-- The members of a `filter_iterator`: `first`, `last` and `filter`, and the
container that the two underlying iterators point into. -/
structure filter_iterator (α : Type) where
  container : List α
  first : Nat
  last : Nat
  filter : α → Bool

/-- The constructor of `filter_iterator`: `first` moves on to the first
element that satisfies the filter, or to `last`. -/
def filter_iterator.make {α : Type} (container : List α) (first last : Nat)
    (filter : α → Bool) : filter_iterator α :=
  { container := container,
    first := skip_while filter last (container.drop first) first,
    last := last,
    filter := filter }

/-- `operator++`: nothing at `last`; else one step, then on to the next
element that satisfies the filter, or to `last`. -/
def filter_iterator.incr {α : Type} (it : filter_iterator α) : filter_iterator α :=
  if it.first = it.last then it
  else
    { it with first :=
        skip_while it.filter it.last (it.container.drop (it.first + 1)) (it.first + 1) }

/-- `operator==`: the two `first` are compared. -/
def filter_iterator.eq {α : Type} (it rhs : filter_iterator α) : Bool :=
  decide (it.first = rhs.first)

/-- `operator!=`. -/
def filter_iterator.ne {α : Type} (it rhs : filter_iterator α) : Bool :=
  decide (it.first ≠ rhs.first)

/-- `operator*`: the element at `first`; there is none at the end of the
container. -/
def filter_iterator.deref {α : Type} (it : filter_iterator α) : Option α :=
  it.container.get? it.first

/-- The members of a `filter_view`. -/
structure filter_view (α : Type) where
  container : List α
  filter : α → Bool

/-- `filter_view::begin`. -/
def filter_view.begin {α : Type} (v : filter_view α) : filter_iterator α :=
  filter_iterator.make v.container 0 v.container.length v.filter

/-- `filter_view::end`. -/
def filter_view.end_ {α : Type} (v : filter_view α) : filter_iterator α :=
  filter_iterator.make v.container v.container.length v.container.length v.filter

/-- The loop of `to_vector`, `while (it != end) { copy.push_back(*it); ++it; }`,
run for at most `fuel` tests of its condition: `none` when the fuel is used up
before the loop ends, or when an iterator with no element is dereferenced. -/
def to_vector_loop {α : Type} : Nat → filter_iterator α → filter_iterator α → List α →
    Option (List α)
  | 0, _, _, _ => none
  | fuel + 1, it, end_it, copy =>
    if it.ne end_it then
      match it.deref with
      | some x => to_vector_loop fuel it.incr end_it (copy ++ [x])
      | none => none
    else some copy

/-- `filter_view::to_vector`, its loop run with the given fuel. -/
def filter_view.to_vector {α : Type} (fuel : Nat) (v : filter_view α) : Option (List α) :=
  to_vector_loop fuel v.begin v.end_ []

/-! ## Reference functions

Closed forms of the two loops, by recursion on the text.  The loops are
proved equal to them below; the properties are then stated on the loops. -/

/-- Every `:` replaced by the escape sequence, in one left-to-right pass. -/
def esc : List Char → List Char
  | [] => []
  | c :: cs => if c = ':' then escape_seq ++ esc cs else c :: esc cs

/-- Every occurrence of the escape sequence replaced by `:`, in one
left-to-right pass which goes on after the occurrence. -/
def unesc : List Char → List Char
  | c :: x :: y :: z :: rest =>
    if c = '\\' ∧ x = 'x' ∧ y = '3' ∧ z = 'A' then ':' :: unesc rest
    else c :: unesc (x :: y :: z :: rest)
  | c :: cs => c :: unesc cs
  | [] => []

/-! ## Notions used to state the properties -/

/-- The strings written one after the other with `operator<<(std::string)`. -/
def data_writer.write_strings (w : data_writer) (fields : List (List Char)) : data_writer :=
  fields.foldl data_writer.write_string w

/-- Successive string reads from `r` return exactly `fields`, in order, with
`more()` true before each read and false after the last. -/
def reads_strings : data_reader → List (List Char) → Prop
  | r, [] => r.more = false
  | r, f :: fs =>
    r.more = true ∧ r.read_string.1 = Except.ok f ∧ reads_strings r.read_string.2 fs

/-- A token with every `,` and every space removed. -/
def strip_separators (t : List Char) : List Char :=
  t.filter (fun c => !(c == ',' || c == ' '))

/-- One or more decimal digits. -/
def is_unsigned_literal (s : List Char) : Prop :=
  s ≠ [] ∧ ∀ c ∈ s, is_digit c = true

/-- One or more decimal digits, after an optional `-`. -/
def is_signed_literal (s : List Char) : Prop :=
  is_unsigned_literal s ∨ ∃ ds, s = '-' :: ds ∧ is_unsigned_literal ds

/-- The integer a decimal literal stands for. -/
def literal_value (s : List Char) : Int :=
  if s.head? = some '-' then -(digits_value s.tail : Int) else (digits_value s : Int)

/-- What an integer read makes of one token: the value, when the cleaned
token is consumed whole without error. -/
def decode_number {α : Type} (from_chars : List Char → from_chars_result α)
    (token : List Char) : Option α :=
  let part := pre_clean_number token
  let res := from_chars part
  if res.ec ≠ errc.ok ∨ res.consumed ≠ part.length then none else res.value

/-- One call of `operator<<`, with its argument; `Dt` and `Mn` stand for
`budget::date` and `budget::money`. -/
inductive write_call (Dt Mn : Type)
  | bool (v : Bool)
  | size_t (v : Nat)
  | int64_t (v : Int)
  | int32_t (v : Int)
  | string (v : List Char)
  | date (v : Dt)
  | money (v : Mn)

/-- The argument of the call is a value of its C++ type. -/
def write_call.in_range {Dt Mn : Type} : write_call Dt Mn → Bool
  | write_call.size_t v => decide (v ≤ size_t_max)
  | write_call.int64_t v => decide (int64_min ≤ v) && decide (v ≤ int64_max)
  | write_call.int32_t v => decide (int32_min ≤ v) && decide (v ≤ int32_max)
  | _ => true

/-- The overload of `operator<<` that the call selects. -/
def data_writer.write {Dt Mn : Type} (date_to_string : Dt → List Char)
    (money_to_string : Mn → List Char) (w : data_writer) :
    write_call Dt Mn → Except exception data_writer
  | write_call.bool v => w.write_bool v
  | write_call.size_t v => w.write_size_t v
  | write_call.int64_t v => w.write_int64_t v
  | write_call.int32_t v => w.write_int32_t v
  | write_call.string v => Except.ok (w.write_string v)
  | write_call.date v => Except.ok (w.write_with date_to_string v)
  | write_call.money v => Except.ok (w.write_with money_to_string v)

/-- A sequence of `operator<<` calls on one writer; an exception ends it. -/
def data_writer.write_all {Dt Mn : Type} (date_to_string : Dt → List Char)
    (money_to_string : Mn → List Char) :
    data_writer → List (write_call Dt Mn) → Except exception data_writer
  | w, [] => Except.ok w
  | w, c :: cs =>
    match w.write date_to_string money_to_string c with
    | Except.ok w' => data_writer.write_all date_to_string money_to_string w' cs
    | Except.error e => Except.error e

/-- The canonical decimal text of `v`: digits only, after a single `-` when
`v` is negative, no leading zero but for the single digit `0`, and the digits
stand for the magnitude of `v`. -/
def canonical_decimal (v : Int) (tok : List Char) : Prop :=
  ∃ ds : List Char, tok = (if v < 0 then '-' :: ds else ds) ∧ ds ≠ [] ∧
    (∀ c ∈ ds, is_digit c = true) ∧ (ds.head? = some '0' → ds = ['0']) ∧
    digits_value ds = v.natAbs

/-- The iterator `it` over the container `c` with the filter `p` stands where
`j` increments from `begin()` lead: before it lie exactly the first `j`
matching elements (or all of them), and it is at a matching element or at the
end. -/
def after_matches {α : Type} (c : List α) (p : α → Bool) (j : Nat)
    (it : filter_iterator α) : Prop :=
  it.container = c ∧ it.filter = p ∧ it.last = c.length ∧ it.first ≤ c.length ∧
  (c.drop it.first = [] ∨ ∃ x rest, c.drop it.first = x :: rest ∧ p x = true) ∧
  (c.drop it.first).filter p = (c.filter p).drop j

/-- One call on a `data_reader`: a typed read, `peek()`, `more()` or
`skip()`. -/
inductive reader_op
  | read_bool
  | read_size_t
  | read_int64_t
  | read_int32_t
  | read_double
  | read_string
  | read_date
  | read_money
  | peek
  | more
  | skip
  deriving DecidableEq, Repr

/-- The call is one of the eight typed reads. -/
def reader_op.is_read : reader_op → Bool
  | reader_op.peek => false
  | reader_op.more => false
  | reader_op.skip => false
  | _ => true

/-- The call made on the reader `r`: whether it returned (`true`) or threw
(`false`), and the reader after it. -/
def data_reader.call {D Dt Mn : Type} (strtod : List Char → D × Nat)
    (date_from_string : List Char → Except exception Dt)
    (money_from_string : List Char → Except exception Mn) (r : data_reader) :
    reader_op → Bool × data_reader
  | reader_op.read_bool => (r.read_bool.1.isOk, r.read_bool.2)
  | reader_op.read_size_t => (r.read_size_t.1.isOk, r.read_size_t.2)
  | reader_op.read_int64_t => (r.read_int64_t.1.isOk, r.read_int64_t.2)
  | reader_op.read_int32_t => (r.read_int32_t.1.isOk, r.read_int32_t.2)
  | reader_op.read_double => ((r.read_double strtod).1.isOk, (r.read_double strtod).2)
  | reader_op.read_string => (r.read_string.1.isOk, r.read_string.2)
  | reader_op.read_date =>
    ((r.read_with date_from_string).1.isOk, (r.read_with date_from_string).2)
  | reader_op.read_money =>
    ((r.read_with money_from_string).1.isOk, (r.read_with money_from_string).2)
  | reader_op.peek => (r.peek.1.isOk, r.peek.2)
  | reader_op.more => (true, r)
  | reader_op.skip => (true, r.skip)

/-- A sequence of calls on one reader, the exceptions caught: the reader
after the last of them. -/
def data_reader.calls {D Dt Mn : Type} (strtod : List Char → D × Nat)
    (date_from_string : List Char → Except exception Dt)
    (money_from_string : List Char → Except exception Mn) :
    data_reader → List reader_op → data_reader
  | r, [] => r
  | r, op :: ops =>
    data_reader.calls strtod date_from_string money_from_string
      (r.call strtod date_from_string money_from_string op).2 ops

/-! ## `objective` records (`src/src/objectives.cpp`) -/

/-- The fields of an `objective` that the two operators touch; `Mn` and `Dt`
stand for `budget::money` and the date type. -/
structure objective (Mn Dt : Type) where
  id : Nat
  guid : List Char
  name : List Char
  type : List Char
  source : List Char
  op : List Char
  amount : Mn
  date : Dt

/-- `operator<<(std::ostream&, const objective&)`: the eight fields as they
are, a `:` between them; `money_text` and `date_text` are the renderings of
the amount and of the date. -/
def objective.write_line {Mn Dt : Type} (money_text : Mn → List Char)
    (date_text : Dt → List Char) (o : objective Mn Dt) : List Char :=
  decimal_digits o.id ++ [':'] ++ o.guid ++ [':'] ++ o.name ++ [':'] ++ o.type ++ [':'] ++
    o.source ++ [':'] ++ o.op ++ [':'] ++ money_text o.amount ++ [':'] ++ date_text o.date

/-- `operator>>(const std::vector<std::string>&, objective&)`: the fields are
assigned from `parts[0]` to `parts[7]`, in this order; `none` when a part is
missing or a conversion (`to_number`, `parse_money`, `from_string`) does not
return. -/
def objective.read_parts {Mn Dt : Type} (to_number : List Char → Option Nat)
    (parse_money : List Char → Option Mn) (from_string : List Char → Option Dt)
    (parts : List (List Char)) (fresh : objective Mn Dt) : Option (objective Mn Dt) := do
  let id ← (parts.get? 0).bind to_number
  let guid ← parts.get? 1
  let name ← parts.get? 2
  let type ← parts.get? 3
  let source ← parts.get? 4
  let op ← parts.get? 5
  let amount ← (parts.get? 6).bind parse_money
  let date ← (parts.get? 7).bind from_string
  pure { fresh with id := id, guid := guid, name := name, type := type, source := source,
                    op := op, amount := amount, date := date }

/-! # Theorems -/

/-! ## The loops and their closed forms -/

theorem unesc_cons (c : Char) (cs : List Char) :
    unesc (c :: cs) =
      if escape_seq.isPrefixOf (c :: cs) then ':' :: unesc (cs.drop 3) else c :: unesc cs := by
  match cs with
  | [] => simp [unesc, escape_seq, List.isPrefixOf]
  | [x] => simp [unesc, escape_seq, List.isPrefixOf]
  | [x, y] => simp [unesc, escape_seq, List.isPrefixOf]
  | x :: y :: z :: rest =>
    simp only [unesc, escape_seq, List.isPrefixOf, List.drop_succ_cons, List.drop_zero,
      Bool.and_true, Bool.and_eq_true, beq_iff_eq]
    by_cases h : c = '\\' ∧ x = 'x' ∧ y = '3' ∧ z = 'A'
    · obtain ⟨h1, h2, h3, h4⟩ := h
      subst h1 h2 h3 h4
      simp
    · have h' : ¬ ('\\' = c ∧ 'x' = x ∧ '3' = y ∧ 'A' = z) := by
        rintro ⟨h1, h2, h3, h4⟩
        exact h ⟨h1.symm, h2.symm, h3.symm, h4.symm⟩
      rw [if_neg h, if_neg h']

theorem unesc_of_find_none :
    ∀ (s : List Char) (i : Nat), find_from escape_seq s i = none → unesc s = s := by
  intro s
  induction s with
  | nil => intro i _; rfl
  | cons c cs ih =>
    intro i h
    simp only [find_from] at h
    split at h
    · simp at h
    · rename_i hp
      rw [unesc_cons, if_neg hp, ih (i + 1) h]

theorem unesc_of_find_some :
    ∀ (s : List Char) (i k : Nat), find_from escape_seq s i = some (i + k) →
      unesc s = s.take k ++ ':' :: unesc (s.drop (k + 4)) := by
  intro s
  induction s with
  | nil => intro i k h; simp [find_from, escape_seq] at h
  | cons c cs ih =>
    intro i k h
    simp only [find_from] at h
    split at h
    · rename_i hp
      simp only [Option.some.injEq] at h
      have hk : k = 0 := by omega
      subst hk
      rw [unesc_cons, if_pos hp]
      simp
    · rename_i hp
      have hge : i + 1 ≤ i + k := by
        have key : ∀ (t : List Char) (j q : Nat), find_from escape_seq t j = some q → j ≤ q := by
          intro t
          induction t with
          | nil => intro j q hq; simp [find_from, escape_seq] at hq
          | cons d ds ih2 =>
            intro j q hq
            simp only [find_from] at hq
            split at hq
            · simp only [Option.some.injEq] at hq; omega
            · have := ih2 (j + 1) q hq; omega
        exact key _ _ _ h
      obtain ⟨k', rfl⟩ : ∃ k', k = k' + 1 := ⟨k - 1, by omega⟩
      have h' : find_from escape_seq cs (i + 1) = some (i + 1 + k') := by
        rw [h]; congr 1; omega
      rw [unesc_cons, if_neg hp, ih (i + 1) k' h']
      simp

theorem esc_of_find_none :
    ∀ (s : List Char) (i : Nat), find_from [':'] s i = none → esc s = s := by
  intro s
  induction s with
  | nil => intro i _; rfl
  | cons c cs ih =>
    intro i h
    simp only [find_from] at h
    split at h
    · simp at h
    · rename_i hp
      have hc : ¬ c = ':' := by
        intro hc; apply hp; subst hc; simp [List.isPrefixOf]
      simp only [esc, if_neg hc, ih (i + 1) h]

theorem find_from_ge (pat : List Char) :
    ∀ (s : List Char) (i p : Nat), find_from pat s i = some p → i ≤ p := by
  intro s
  induction s with
  | nil =>
    intro i p h
    simp only [find_from] at h
    split at h
    · simp only [Option.some.injEq] at h; omega
    · simp at h
  | cons c cs ih =>
    intro i p h
    simp only [find_from] at h
    split at h
    · simp only [Option.some.injEq] at h; omega
    · have := ih (i + 1) p h; omega

theorem find_from_le (pat : List Char) :
    ∀ (s : List Char) (i p : Nat), find_from pat s i = some p →
      p + pat.length ≤ i + s.length := by
  intro s
  induction s with
  | nil =>
    intro i p h
    simp only [find_from] at h
    split at h
    · rename_i hp
      have hl := (List.isPrefixOf_iff_prefix.mp hp).length_le
      simp only [Option.some.injEq] at h
      omega
    · simp at h
  | cons c cs ih =>
    intro i p h
    simp only [find_from] at h
    split at h
    · rename_i hp
      have hl := (List.isPrefixOf_iff_prefix.mp hp).length_le
      simp only [Option.some.injEq] at h
      omega
    · have := ih (i + 1) p h
      simp only [List.length_cons]
      omega

theorem esc_of_find_some :
    ∀ (s : List Char) (i k : Nat), find_from [':'] s i = some (i + k) →
      esc s = s.take k ++ escape_seq ++ esc (s.drop (k + 1)) := by
  intro s
  induction s with
  | nil => intro i k h; simp [find_from] at h
  | cons c cs ih =>
    intro i k h
    simp only [find_from] at h
    split at h
    · rename_i hp
      simp only [Option.some.injEq] at h
      have hk : k = 0 := by omega
      subst hk
      have hc : c = ':' := by
        simp only [List.isPrefixOf, Bool.and_true, beq_iff_eq] at hp
        exact hp.symm
      simp [esc, hc]
    · rename_i hp
      have hge := find_from_ge _ _ _ _ h
      obtain ⟨k', rfl⟩ : ∃ k', k = k' + 1 := ⟨k - 1, by omega⟩
      have h' : find_from [':'] cs (i + 1) = some (i + 1 + k') := by
        rw [h]; congr 1; omega
      have hc : ¬ c = ':' := by
        intro hc; apply hp; subst hc; simp [List.isPrefixOf]
      simp only [esc, if_neg hc, ih (i + 1) k' h']
      simp

theorem string_find_spec {s pat : List Char} {pos p : Nat}
    (h : string_find s pat pos = some p) :
    pos ≤ s.length ∧ pos ≤ p ∧ p + pat.length ≤ s.length ∧
      find_from pat (s.drop pos) pos = some (pos + (p - pos)) := by
  unfold string_find at h
  split at h
  · rename_i hle
    have hge := find_from_ge pat _ _ _ h
    have hl := find_from_le pat _ _ _ h
    rw [List.length_drop] at hl
    refine ⟨hle, hge, by omega, ?_⟩
    rw [h]; congr 1; omega
  · simp at h

theorem parse_input_loop_eq :
    ∀ (n : Nat) (part : List Char) (pos : Nat), part.length - pos ≤ n → pos ≤ part.length →
      parse_input_loop part pos = part.take pos ++ unesc (part.drop pos) := by
  intro n
  induction n with
  | zero =>
    intro part pos hn hpos
    have hlen : pos = part.length := by omega
    unfold parse_input_loop
    split
    · subst hlen
      simp [unesc]
    · rename_i p hp
      have := string_find_spec hp
      simp only [escape_seq, List.length_cons, List.length_nil] at this
      omega
  | succ n ih =>
    intro part pos hn hpos
    unfold parse_input_loop
    split
    · rename_i hnone
      unfold string_find at hnone
      rw [if_pos hpos] at hnone
      rw [unesc_of_find_none _ _ hnone, List.take_append_drop]
    · rename_i p hp
      obtain ⟨_, hge, hle, hf⟩ := string_find_spec hp
      simp only [escape_seq, List.length_cons, List.length_nil] at hle
      have hrec := ih (string_replace part p 4 [':']) (p + 1)
        (by simp only [string_replace, List.length_append, List.length_take,
              List.length_drop, List.length_cons, List.length_nil]; omega)
        (by simp only [string_replace, List.length_append, List.length_take,
              List.length_drop, List.length_cons, List.length_nil]; omega)
      rw [hrec, unesc_of_find_some _ _ _ hf]
      have hp1 : (List.take p part).length = p := by
        rw [List.length_take]; omega
      have e1 : List.take (p + 1) (string_replace part p 4 [':']) = part.take p ++ [':'] := by
        simp only [string_replace, List.append_assoc]
        rw [List.take_append_eq_append_take, hp1]
        simp [List.take_take]
      have e2 : List.drop (p + 1) (string_replace part p 4 [':']) = part.drop (p + 4) := by
        simp only [string_replace, List.append_assoc]
        rw [List.drop_append_eq_append_drop, hp1]
        have : List.drop (p + 1) (List.take p part) = [] :=
          List.drop_of_length_le (by omega)
        simp [this]
      rw [e1, e2, List.drop_drop, List.take_drop]
      have e3 : pos + (p - pos + 4) = p + 4 := by omega
      have e4 : pos + (p - pos) = p := by omega
      rw [e3, e4]
      have e5 : part.take p = part.take pos ++ (part.take p).drop pos := by
        have := (List.take_append_drop pos (part.take p)).symm
        rw [List.take_take] at this
        rw [Nat.min_eq_left hge] at this
        exact this
      conv_lhs => rw [e5]
      simp

theorem parse_output_loop_eq :
    ∀ (n : Nat) (part : List Char) (pos : Nat), part.length - pos ≤ n → pos ≤ part.length →
      parse_output_loop part pos = part.take pos ++ esc (part.drop pos) := by
  intro n
  induction n with
  | zero =>
    intro part pos hn hpos
    have hlen : pos = part.length := by omega
    unfold parse_output_loop
    split
    · subst hlen
      simp [esc]
    · rename_i p hp
      have := string_find_spec hp
      simp only [List.length_cons, List.length_nil] at this
      omega
  | succ n ih =>
    intro part pos hn hpos
    unfold parse_output_loop
    split
    · rename_i hnone
      unfold string_find at hnone
      rw [if_pos hpos] at hnone
      rw [esc_of_find_none _ _ hnone, List.take_append_drop]
    · rename_i p hp
      obtain ⟨_, hge, hle, hf⟩ := string_find_spec hp
      simp only [List.length_cons, List.length_nil] at hle
      have hrec := ih (string_replace part p 1 escape_seq) (p + 4)
        (by simp only [string_replace, escape_seq, List.length_append, List.length_take,
              List.length_drop, List.length_cons, List.length_nil]; omega)
        (by simp only [string_replace, escape_seq, List.length_append, List.length_take,
              List.length_drop, List.length_cons, List.length_nil]; omega)
      rw [hrec, esc_of_find_some _ _ _ hf]
      have hp1 : (List.take p part).length = p := by
        rw [List.length_take]; omega
      have e1 : List.take (p + 4) (string_replace part p 1 escape_seq)
          = part.take p ++ escape_seq := by
        simp only [string_replace, List.append_assoc]
        rw [List.take_append_eq_append_take, hp1]
        simp [List.take_take, escape_seq]
      have e2 : List.drop (p + 4) (string_replace part p 1 escape_seq)
          = part.drop (p + 1) := by
        simp only [string_replace, List.append_assoc]
        rw [List.drop_append_eq_append_drop, hp1]
        have : List.drop (p + 4) (List.take p part) = [] :=
          List.drop_of_length_le (by omega)
        simp [this, escape_seq]
      rw [e1, e2, List.drop_drop, List.take_drop]
      have e3 : pos + (p - pos + 1) = p + 1 := by omega
      have e4 : pos + (p - pos) = p := by omega
      rw [e3, e4]
      have e5 : part.take p = part.take pos ++ (part.take p).drop pos := by
        have := (List.take_append_drop pos (part.take p)).symm
        rw [List.take_take] at this
        rw [Nat.min_eq_left hge] at this
        exact this
      conv_lhs => rw [e5]
      simp

/-- The unescaping loop of `parse_input` computes `unesc`. -/
theorem parse_input_part_eq (part : List Char) : parse_input_part part = unesc part := by
  unfold parse_input_part
  rw [parse_input_loop_eq part.length part 0 (by omega) (by omega)]
  simp

/-- The escaping loop of `parse_output` computes `esc`. -/
theorem parse_output_part_eq (part : List Char) : parse_output_part part = esc part := by
  unfold parse_output_part
  rw [parse_output_loop_eq part.length part 0 (by omega) (by omega)]
  simp

/-! ## Escaping and unescaping of one token -/

theorem isPrefixOf_esc (q : List Char) (h1 : ':' ∉ q) (h2 : '\\' ∉ q) :
    ∀ cs : List Char, q.isPrefixOf (esc cs) = q.isPrefixOf cs := by
  induction q with
  | nil => intro cs; simp
  | cons a q ih =>
    intro cs
    have ha1 : a ≠ ':' := fun h => h1 (by simp [h])
    have ha2 : a ≠ '\\' := fun h => h2 (by simp [h])
    have hq1 : ':' ∉ q := fun h => h1 (List.mem_cons_of_mem _ h)
    have hq2 : '\\' ∉ q := fun h => h2 (List.mem_cons_of_mem _ h)
    cases cs with
    | nil => simp [esc]
    | cons b bs =>
      by_cases hb : b = ':'
      · subst hb
        have e1 : (a == '\\') = false := by simpa using ha2
        have e2 : (a == ':') = false := by simpa using ha1
        simp [esc, escape_seq, List.isPrefixOf, e1, e2]
      · simp only [esc, if_neg hb, List.isPrefixOf, ih hq1 hq2 bs]

theorem unesc_escape_seq_append (rest : List Char) :
    unesc (escape_seq ++ rest) = ':' :: unesc rest := by
  simp [escape_seq, unesc]

theorem unesc_esc_aux :
    ∀ (n : Nat) (t : List Char), t.length ≤ n → unesc (esc t) = unesc t := by
  intro n
  induction n with
  | zero =>
    intro t ht
    have : t = [] := List.length_eq_zero.mp (by omega)
    subst this
    rfl
  | succ n ih =>
    intro t ht
    cases t with
    | nil => rfl
    | cons c cs =>
      simp only [List.length_cons] at ht
      by_cases hc : c = ':'
      · subst hc
        have hnp : escape_seq.isPrefixOf (':' :: cs) = false := by
          simp [escape_seq, List.isPrefixOf]
        rw [unesc_cons, hnp]
        simp only [esc, if_true, unesc_escape_seq_append, ih cs (by omega)]
        simp
      · simp only [esc, if_neg hc]
        rw [unesc_cons, unesc_cons]
        have hpre : escape_seq.isPrefixOf (c :: esc cs) = escape_seq.isPrefixOf (c :: cs) := by
          simp only [escape_seq, List.isPrefixOf]
          have := isPrefixOf_esc ['x', '3', 'A'] (by decide) (by decide) cs
          simp only [List.isPrefixOf] at this
          rw [this]
        rw [hpre]
        by_cases hp : escape_seq.isPrefixOf (c :: cs) = true
        · rw [if_pos hp, if_pos hp]
          obtain ⟨rest, hrest⟩ := List.isPrefixOf_iff_prefix.mp hp
          simp only [escape_seq, List.cons_append, List.nil_append, List.cons.injEq] at hrest
          obtain ⟨_, hcs⟩ := hrest
          subst hcs
          have hl : rest.length ≤ n := by
            simp only [List.length_cons] at ht; omega
          simp [esc, ih rest hl]
        · rw [if_neg hp, if_neg hp, ih cs (by omega)]

/-- Unescaping undoes escaping up to the unescaping of the token itself:
what the reader gets from an escaped token is the token with its own
occurrences of the escape sequence turned into `:`. -/
theorem unesc_esc (t : List Char) : unesc (esc t) = unesc t :=
  unesc_esc_aux t.length t (Nat.le_refl _)

theorem unesc_of_not_infix :
    ∀ t : List Char, ¬ escape_seq <:+: t → unesc t = t := by
  intro t
  induction t with
  | nil => intro _; rfl
  | cons c cs ih =>
    intro h
    have hp : ¬ escape_seq.isPrefixOf (c :: cs) = true := by
      intro hp
      exact h (List.isPrefixOf_iff_prefix.mp hp).isInfix
    have hcs : ¬ escape_seq <:+: cs := by
      intro hcs
      exact h (List.infix_cons hcs)
    rw [unesc_cons, if_neg hp, ih hcs]

theorem unesc_length_le :
    ∀ (n : Nat) (t : List Char), t.length ≤ n → (unesc t).length ≤ t.length := by
  intro n
  induction n with
  | zero =>
    intro t ht
    have : t = [] := List.length_eq_zero.mp (by omega)
    subst this
    simp [unesc]
  | succ n ih =>
    intro t ht
    cases t with
    | nil => simp [unesc]
    | cons c cs =>
      simp only [List.length_cons] at ht
      rw [unesc_cons]
      split
      · have := ih (cs.drop 3) (by rw [List.length_drop]; omega)
        rw [List.length_drop] at this
        simp only [List.length_cons]
        omega
      · have := ih cs (by omega)
        simp only [List.length_cons]
        omega

theorem unesc_length_lt_of_infix :
    ∀ t : List Char, escape_seq <:+: t → (unesc t).length < t.length := by
  intro t
  induction t with
  | nil =>
    intro h
    have := h.length_le
    simp [escape_seq] at this
  | cons c cs ih =>
    intro h
    rw [unesc_cons]
    split
    · rename_i hp
      have hl := (List.isPrefixOf_iff_prefix.mp hp).length_le
      simp only [escape_seq, List.length_cons, List.length_nil] at hl
      have := unesc_length_le _ (cs.drop 3) (Nat.le_refl _)
      rw [List.length_drop] at this
      simp only [List.length_cons]
      omega
    · rename_i hp
      rcases List.infix_cons_iff.mp h with h1 | h1
      · exact absurd (List.isPrefixOf_iff_prefix.mpr h1) hp
      · have := ih h1
        simp only [List.length_cons]
        omega

/-- C1 (as stated) fails: the token made of the four characters of the escape
sequence is written unchanged (it holds no `:`), and read back as `:`. -/
theorem C1_counterexample :
    parse_output_part ['\\', 'x', '3', 'A'] = ['\\', 'x', '3', 'A'] ∧
      parse_input_part (parse_output_part ['\\', 'x', '3', 'A']) = [':'] ∧
      parse_input_part (parse_output_part ['\\', 'x', '3', 'A']) ≠ ['\\', 'x', '3', 'A'] := by
  rw [parse_output_part_eq, parse_input_part_eq]
  decide

/-- C1 (amended): unescaping the escaped form of a token `t` returns exactly
`t` if and only if `t` does not contain the escape sequence. -/
theorem C1_roundtrip_iff (t : List Char) :
    parse_input_part (parse_output_part t) = t ↔ ¬ escape_seq <:+: t := by
  rw [parse_output_part_eq, parse_input_part_eq, unesc_esc]
  constructor
  · intro h hin
    have := unesc_length_lt_of_infix t hin
    rw [h] at this
    omega
  · exact unesc_of_not_infix t

/-- C2: for every token `t` without the escape sequence, whatever the number
and the place of its `:` characters, unescaping the escaped form of `t`
returns exactly `t`. -/
theorem C2_roundtrip_no_escape_seq (t : List Char) (h : ¬ escape_seq <:+: t) :
    parse_input_part (parse_output_part t) = t := by
  rw [parse_output_part_eq, parse_input_part_eq, unesc_esc]
  exact unesc_of_not_infix t h

/-- C2 at the token `:a::b:` (a leading, a trailing and two consecutive
delimiters). -/
theorem C2_roundtrip_no_escape_seq_witness :
    (¬ escape_seq <:+: [':', 'a', ':', ':', 'b', ':']) ∧
      parse_input_part (parse_output_part [':', 'a', ':', ':', 'b', ':'])
        = [':', 'a', ':', ':', 'b', ':'] :=
  ⟨by decide, C2_roundtrip_no_escape_seq _ (by decide)⟩

/-! ## Lines: `parse_output`, `split`, `parse` -/

theorem esc_no_delim : ∀ t : List Char, ':' ∉ esc t := by
  intro t
  induction t with
  | nil => simp [esc]
  | cons c cs ih =>
    by_cases hc : c = ':'
    · simp only [esc, if_pos hc]
      simp [escape_seq, ih]
    · simp only [esc, if_neg hc]
      simp only [List.mem_cons, not_or]
      exact ⟨fun h => hc h.symm, ih⟩

theorem parse_output_go_eq :
    ∀ (parts : List (List Char)) (output : List Char),
      parse_output_go parts output [':'] =
        output ++ (parts.map (fun p => ':' :: parse_output_part p)).flatten := by
  intro parts
  induction parts with
  | nil => intro output; simp [parse_output_go]
  | cons p rest ih =>
    intro output
    simp [parse_output_go, ih]

theorem intercalate_cons (sep x : List Char) (xs : List (List Char)) :
    List.intercalate sep (x :: xs) = x ++ (xs.map (fun p => sep ++ p)).flatten := by
  induction xs generalizing x with
  | nil => simp [List.intercalate]
  | cons y ys ih =>
    have := ih y
    simp only [List.intercalate] at this ⊢
    simp [List.intersperse, this]

/-- The line of `parse_output`: the escaped parts joined by `:`. -/
theorem parse_output_eq_intercalate (parts : List (List Char)) :
    parse_output parts = List.intercalate [':'] (parts.map parse_output_part) := by
  cases parts with
  | nil => simp [parse_output, parse_output_go, List.intercalate]
  | cons p rest =>
    rw [List.map_cons, intercalate_cons]
    simp [parse_output, parse_output_go, parse_output_go_eq, List.map_map, Function.comp_def]

theorem split_no_delim : ∀ t : List Char, ':' ∉ t → split ':' t = [t] := by
  intro t
  induction t with
  | nil => intro _; rfl
  | cons c cs ih =>
    intro h
    simp only [List.mem_cons, not_or] at h
    have hc : ¬ c = ':' := fun e => h.1 e.symm
    simp [split, hc, ih h.2]

theorem split_append_delim :
    ∀ (t rest : List Char), ':' ∉ t → split ':' (t ++ ':' :: rest) = t :: split ':' rest := by
  intro t
  induction t with
  | nil => intro rest _; simp [split]
  | cons c cs ih =>
    intro rest h
    simp only [List.mem_cons, not_or] at h
    have hc : ¬ c = ':' := fun e => h.1 e.symm
    simp [split, hc, ih rest h.2]

/-- The model of `split` is as the spec words it: `k` delimiters give `k + 1`
tokens. -/
theorem split_length (s : List Char) : (split ':' s).length = s.count ':' + 1 := by
  induction s with
  | nil => rfl
  | cons c cs ih =>
    by_cases hc : c = ':'
    · subst hc
      simp [split, ih]
    · have hc' : ¬ ':' = c := fun e => hc e.symm
      simp only [split, if_neg hc]
      have hne : split ':' cs ≠ [] := by
        intro h
        rw [h] at ih
        simp at ih
      cases hs : split ':' cs with
      | nil => exact absurd hs hne
      | cons t ts =>
        rw [hs] at ih
        simp only [List.length_cons] at ih ⊢
        rw [List.count_cons_of_ne hc']
        exact ih

theorem split_intercalate :
    ∀ (t : List Char) (ts : List (List Char)), (∀ x ∈ t :: ts, ':' ∉ x) →
      split ':' (List.intercalate [':'] (t :: ts)) = t :: ts := by
  intro t ts
  induction ts generalizing t with
  | nil =>
    intro h
    have e : List.intercalate [':'] [t] = t := by simp [List.intercalate]
    rw [e]
    exact split_no_delim t (h t (by simp))
  | cons u us ih =>
    intro h
    have e : List.intercalate [':'] (t :: u :: us)
        = t ++ ':' :: List.intercalate [':'] (u :: us) := by
      rw [intercalate_cons, intercalate_cons]
      simp
    rw [e, split_append_delim t _ (h t (by simp)), ih u (fun x hx => h x (by simp [hx]))]

theorem write_strings_parts (fields : List (List Char)) :
    ∀ w : data_writer, (w.write_strings fields).parts = w.parts ++ fields := by
  induction fields with
  | nil => intro w; simp [data_writer.write_strings]
  | cons f fs ih =>
    intro w
    have := ih (w.write_string f)
    simp only [data_writer.write_strings, List.foldl_cons] at this ⊢
    rw [this]
    simp [data_writer.write_string]

theorem reads_strings_from (parts : List (List Char)) :
    ∀ (fs pre : List (List Char)), parts = pre ++ fs →
      reads_strings { parts := parts, current := pre.length } fs := by
  intro fs
  induction fs with
  | nil =>
    intro pre h
    subst h
    simp [reads_strings, data_reader.more]
  | cons f fs ih =>
    intro pre h
    have hget : parts[pre.length]? = some f := by
      subst h
      rw [List.getElem?_append_right (Nat.le_refl _)]
      simp
    have hlt : pre.length < parts.length := by
      subst h
      simp
    have hnext := ih (pre ++ [f]) (by subst h; simp)
    simp only [List.length_append, List.length_cons, List.length_nil] at hnext
    simp only [reads_strings, data_reader.more, data_reader.read_string, parts_at, hget]
    exact ⟨by simpa using hlt, trivial, hnext⟩

theorem parse_to_string_parts (parts : List (List Char)) (hne : parts ≠ [])
    (h : ∀ f ∈ parts, ¬ escape_seq <:+: f) (r : data_reader) :
    (r.parse (data_writer.mk parts).to_string).parts = parts := by
  simp only [data_reader.parse, data_writer.to_string, parse_output_eq_intercalate]
  cases parts with
  | nil => exact absurd rfl hne
  | cons p ps =>
    have hs := split_intercalate (parse_output_part p) (ps.map parse_output_part)
      (by
        intro x hx
        rw [← List.map_cons] at hx
        obtain ⟨y, _, rfl⟩ := List.mem_map.mp hx
        rw [parse_output_part_eq]
        exact esc_no_delim y)
    rw [List.map_cons, hs, ← List.map_cons, parse_input, List.map_map]
    conv_rhs => rw [← List.map_id (p :: ps)]
    apply List.map_congr_left
    intro f hf
    simp only [Function.comp_apply, id_eq, parse_output_part_eq, parse_input_part_eq, unesc_esc]
    exact unesc_of_not_infix f (h f hf)

/-- C3: for every non-empty list of text fields without the escape sequence,
the line made by writing them in order and taking `to_string()`, given to
`parse`, yields a reader whose fields are exactly those written, whose cursor
is 0, and whose successive string reads return the same fields in the same
order, with `more()` true before each of them and false after the last. -/
theorem C3_record_roundtrip (fields : List (List Char)) (hne : fields ≠ [])
    (h : ∀ f ∈ fields, ¬ escape_seq <:+: f) (r : data_reader) :
    (r.parse ((data_writer.mk []).write_strings fields).to_string)
        = { parts := fields, current := 0 } ∧
      reads_strings (r.parse ((data_writer.mk []).write_strings fields).to_string) fields := by
  have hw : (data_writer.mk []).write_strings fields = data_writer.mk fields := by
    have := write_strings_parts fields (data_writer.mk [])
    cases hx : (data_writer.mk []).write_strings fields with
    | mk ps =>
      rw [hx] at this
      simp only [List.nil_append] at this
      rw [this]
  have hp := parse_to_string_parts fields hne h r
  have hr : r.parse (data_writer.mk fields).to_string = { parts := fields, current := 0 } := by
    cases hx : r.parse (data_writer.mk fields).to_string with
    | mk ps cur =>
      rw [hx] at hp
      have hc : cur = 0 := by
        have : (r.parse (data_writer.mk fields).to_string).current = 0 := rfl
        rw [hx] at this
        exact this
      simp only at hp
      rw [hp, hc]
  rw [hw, hr]
  exact ⟨rfl, reads_strings_from fields fields [] rfl⟩

/-- C3 at the three fields `:a`, the empty string and `b`. -/
theorem C3_record_roundtrip_witness :
    ([[':', 'a'], [], ['b']] ≠ ([] : List (List Char))) ∧
      (∀ f ∈ [[':', 'a'], [], ['b']], ¬ escape_seq <:+: f) ∧
      reads_strings
        ((data_reader.mk [] 0).parse
          ((data_writer.mk []).write_strings [[':', 'a'], [], ['b']]).to_string)
        [[':', 'a'], [], ['b']] :=
  ⟨by decide, by decide,
    (C3_record_roundtrip [[':', 'a'], [], ['b']] (by decide) (by decide)
      (data_reader.mk [] 0)).2⟩

/-! ## Decimal text -/

theorem is_digit_digitChar (d : Nat) (h : d < 10) : is_digit (Nat.digitChar d) = true := by
  interval_cases d <;> decide

theorem digit_value_digitChar (d : Nat) (h : d < 10) : digit_value (Nat.digitChar d) = d := by
  interval_cases d <;> decide

theorem digits_value_append (ds : List Char) (c : Char) :
    digits_value (ds ++ [c]) = 10 * digits_value ds + digit_value c := by
  simp [digits_value, List.foldl_append]

theorem digits_value_rev_map (L : List Nat) (h : ∀ d ∈ L, d < 10) :
    digits_value ((L.map Nat.digitChar).reverse) = Nat.ofDigits 10 L := by
  induction L with
  | nil => simp [digits_value]
  | cons d L ih =>
    have hd : d < 10 := h d (by simp)
    have hL : ∀ x ∈ L, x < 10 := fun x hx => h x (by simp [hx])
    rw [List.map_cons, List.reverse_cons, digits_value_append, ih hL,
      digit_value_digitChar d hd, Nat.ofDigits_cons]
    omega

theorem decimal_digits_value (n : Nat) : digits_value (decimal_digits n) = n := by
  unfold decimal_digits
  split
  · rename_i h
    subst h
    decide
  · rw [digits_value_rev_map _ (fun d hd => Nat.digits_lt_base (by norm_num) hd),
      Nat.ofDigits_digits]

theorem decimal_digits_all (n : Nat) : ∀ c ∈ decimal_digits n, is_digit c = true := by
  intro c hc
  unfold decimal_digits at hc
  split at hc
  · simp only [List.mem_singleton] at hc
    subst hc
    decide
  · simp only [List.mem_reverse, List.mem_map] at hc
    obtain ⟨d, hd, rfl⟩ := hc
    exact is_digit_digitChar d (Nat.digits_lt_base (by norm_num) hd)

theorem decimal_digits_ne_nil (n : Nat) : decimal_digits n ≠ [] := by
  unfold decimal_digits
  split
  · simp
  · rename_i h
    have : Nat.digits 10 n ≠ [] := Nat.digits_ne_nil_iff_ne_zero.mpr h
    simpa using this

theorem decimal_digits_length (n : Nat) (h : n < 2 ^ 64) : (decimal_digits n).length ≤ 20 := by
  unfold decimal_digits
  split
  · simp
  · rename_i hn
    simp only [List.length_reverse, List.length_map]
    have h1 := Nat.base_pow_length_digits_le 10 n (by norm_num) hn
    have h2 : 10 ^ (Nat.digits 10 n).length < 10 ^ 21 := by
      have : 10 * n < 10 ^ 21 := by
        have : (2 : Nat) ^ 64 ≤ 10 ^ 20 := by norm_num
        omega
      omega
    have h3 := (Nat.pow_lt_pow_iff_right (a := 10) (by norm_num)).mp h2
    omega

theorem decimal_digits_head (n : Nat) (h : (decimal_digits n).head? = some '0') :
    decimal_digits n = ['0'] := by
  unfold decimal_digits at h ⊢
  split
  · rfl
  · rename_i hn
    rw [if_neg hn] at h
    exfalso
    have hne : Nat.digits 10 n ≠ [] := Nat.digits_ne_nil_iff_ne_zero.mpr hn
    have hlast := Nat.getLast_digit_ne_zero 10 hn
    have hlt : (Nat.digits 10 n).getLast hne < 10 :=
      Nat.digits_lt_base (by norm_num) (List.getLast_mem hne)
    rw [List.head?_reverse, List.getLast?_map, List.getLast?_eq_getLast _ hne] at h
    simp only [Option.map_some', Option.some.injEq] at h
    generalize (Nat.digits 10 n).getLast hne = d at hlast hlt h
    interval_cases d <;> first | exact hlast rfl | (revert h; decide)

theorem takeWhile_all (ds rest : List Char) (h : ∀ c ∈ ds, is_digit c = true)
    (hr : rest.head?.map is_digit ≠ some true) :
    (ds ++ rest).takeWhile is_digit = ds := by
  induction ds with
  | nil =>
    cases rest with
    | nil => rfl
    | cons c cs =>
      have : is_digit c = false := by
        cases hc : is_digit c with
        | false => rfl
        | true => simp [hc] at hr
      simp [List.takeWhile, this]
  | cons d ds ih =>
    have hd := h d (by simp)
    rw [List.cons_append, List.takeWhile_cons, hd]
    simp only [if_true]
    rw [ih (fun c hc => h c (by simp [hc]))]

theorem takeWhile_digits (ds : List Char) (h : ∀ c ∈ ds, is_digit c = true) :
    ds.takeWhile is_digit = ds := by
  have := takeWhile_all ds [] h (by simp)
  simpa using this

theorem pre_clean_number_digits (ds : List Char)
    (h : ∀ c ∈ ds, is_digit c = true ∨ c = '-') : pre_clean_number ds = ds := by
  unfold pre_clean_number
  have h1 : ∀ c ∈ ds, (c != ',') = true := by
    intro c hc
    rcases h c hc with hd | hd
    · simp only [bne_iff_ne]
      intro e
      subst e
      revert hd
      decide
    · subst hd
      decide
  have h2 : ∀ c ∈ ds, (c != ' ') = true := by
    intro c hc
    rcases h c hc with hd | hd
    · simp only [bne_iff_ne]
      intro e
      subst e
      revert hd
      decide
    · subst hd
      decide
  rw [List.filter_eq_self.mpr h1, List.filter_eq_self.mpr h2]

theorem decimal_text_chars (v : Int) : ∀ c ∈ decimal_text v, is_digit c = true ∨ c = '-' := by
  intro c hc
  unfold decimal_text at hc
  split at hc
  · rcases List.mem_cons.mp hc with h | h
    · exact Or.inr h
    · exact Or.inl (decimal_digits_all _ c h)
  · exact Or.inl (decimal_digits_all _ c hc)

theorem decimal_text_length (v : Int) (h : v.natAbs < 2 ^ 64) :
    (decimal_text v).length ≤ 21 := by
  have := decimal_digits_length v.natAbs h
  unfold decimal_text
  split
  · simp only [List.length_cons]; omega
  · omega

theorem decimal_digits_head_not_minus (n : Nat) :
    ((decimal_digits n).head? == some '-') = false := by
  have hne := decimal_digits_ne_nil n
  have hall := decimal_digits_all n
  cases hd : decimal_digits n with
  | nil => exact absurd hd hne
  | cons c cs =>
    have hc : is_digit c = true := hall c (by rw [hd]; simp)
    simp only [List.head?_cons]
    have : c ≠ '-' := by
      intro e
      subst e
      revert hc
      decide
    simpa using this

theorem from_chars_unsigned_decimal (hi n : Nat) (h : n ≤ hi) :
    from_chars_unsigned hi (decimal_digits n)
      = ⟨(decimal_digits n).length, errc.ok, some n⟩ := by
  unfold from_chars_unsigned
  simp only [takeWhile_digits _ (decimal_digits_all n), decimal_digits_value,
    if_neg (decimal_digits_ne_nil n), if_pos h]

theorem from_chars_signed_decimal (lo hi v : Int) (h1 : lo ≤ v) (h2 : v ≤ hi) :
    from_chars_signed lo hi (decimal_text v)
      = ⟨(decimal_text v).length, errc.ok, some v⟩ := by
  unfold from_chars_signed decimal_text
  by_cases hv : v < 0
  · have e : (-(v.natAbs : Int)) = v := by omega
    simp only [if_pos hv, List.head?_cons, List.tail_cons, beq_self_eq_true, if_true,
      takeWhile_digits _ (decimal_digits_all _), decimal_digits_value,
      if_neg (decimal_digits_ne_nil _), e, List.length_cons]
    rw [if_pos ⟨h1, h2⟩]
  · have e : ((v.natAbs : Nat) : Int) = v := by omega
    simp only [if_neg hv, decimal_digits_head_not_minus, Bool.false_eq_true, if_false,
      takeWhile_digits _ (decimal_digits_all _), decimal_digits_value,
      if_neg (decimal_digits_ne_nil _), e]
    rw [if_pos ⟨h1, h2⟩]

/-! ## Numeric tokens: write, then read -/

theorem parts_at_middle (pre post : List (List Char)) (tok : List Char) :
    parts_at (pre ++ tok :: post) pre.length = Except.ok tok := by
  unfold parts_at
  rw [List.getElem?_append_right (Nat.le_refl _)]
  simp

theorem read_number_ok {α : Type} (from_chars : List Char → from_chars_result α)
    (type_name : String) (r : data_reader) (tok : List Char) (v : α)
    (hat : parts_at r.parts r.current = Except.ok tok)
    (hfc : from_chars (pre_clean_number tok)
      = ⟨(pre_clean_number tok).length, errc.ok, some v⟩) :
    read_number from_chars type_name r = (Except.ok v, { r with current := r.current + 1 }) := by
  unfold read_number
  rw [hat]
  simp [hfc]

theorem write_number_ok (w : data_writer) (v : Int) (h : v.natAbs < 2 ^ 64) :
    write_number w v = Except.ok { parts := w.parts ++ [decimal_text v] } := by
  unfold write_number to_chars
  have := decimal_text_length v h
  rw [if_pos (by omega)]

theorem read_back_unsigned (type_name : String) (n : Nat) (h : n ≤ size_t_max)
    (pre post : List (List Char)) :
    read_number (from_chars_unsigned size_t_max) type_name
        { parts := pre ++ decimal_text (n : Int) :: post, current := pre.length }
      = (Except.ok n,
          { parts := pre ++ decimal_text (n : Int) :: post, current := pre.length + 1 }) := by
  have e : decimal_text (n : Int) = decimal_digits n := by
    unfold decimal_text
    rw [if_neg (by omega)]
    simp
  apply read_number_ok _ _ _ _ _ (parts_at_middle _ _ _)
  rw [pre_clean_number_digits _ (decimal_text_chars _), e]
  exact from_chars_unsigned_decimal _ _ h

theorem read_back_signed (type_name : String) (lo hi v : Int) (h1 : lo ≤ v) (h2 : v ≤ hi)
    (pre post : List (List Char)) :
    read_number (from_chars_signed lo hi) type_name
        { parts := pre ++ decimal_text v :: post, current := pre.length }
      = (Except.ok v, { parts := pre ++ decimal_text v :: post, current := pre.length + 1 }) := by
  apply read_number_ok _ _ _ _ _ (parts_at_middle _ _ _)
  rw [pre_clean_number_digits _ (decimal_text_chars _)]
  exact from_chars_signed_decimal _ _ _ h1 h2

/-- C4: for every `bool`, `size_t`, `int64_t` and `int32_t` value, the write
appends one token, and that token, wherever it stands in a reader, is read
back at the same type with success and gives exactly the value, the cursor
moving on by one. -/
theorem C4_numeric_roundtrip (b : Bool) (n : Nat) (i j : Int)
    (hn : n ≤ size_t_max) (hi : int64_min ≤ i ∧ i ≤ int64_max)
    (hj : int32_min ≤ j ∧ j ≤ int32_max)
    (w : data_writer) (pre post : List (List Char)) :
    (∃ tok, w.write_bool b = Except.ok { parts := w.parts ++ [tok] } ∧
        (data_reader.mk (pre ++ tok :: post) pre.length).read_bool
          = (Except.ok b, data_reader.mk (pre ++ tok :: post) (pre.length + 1))) ∧
    (∃ tok, w.write_size_t n = Except.ok { parts := w.parts ++ [tok] } ∧
        (data_reader.mk (pre ++ tok :: post) pre.length).read_size_t
          = (Except.ok n, data_reader.mk (pre ++ tok :: post) (pre.length + 1))) ∧
    (∃ tok, w.write_int64_t i = Except.ok { parts := w.parts ++ [tok] } ∧
        (data_reader.mk (pre ++ tok :: post) pre.length).read_int64_t
          = (Except.ok i, data_reader.mk (pre ++ tok :: post) (pre.length + 1))) ∧
    (∃ tok, w.write_int32_t j = Except.ok { parts := w.parts ++ [tok] } ∧
        (data_reader.mk (pre ++ tok :: post) pre.length).read_int32_t
          = (Except.ok j, data_reader.mk (pre ++ tok :: post) (pre.length + 1))) := by
  simp only [size_t_max, int64_min, int64_max, int32_min, int32_max] at hn hi hj
  refine ⟨?_, ?_, ?_, ?_⟩
  · cases b with
    | false =>
      refine ⟨decimal_text ((0 : Nat) : Int), write_number_ok w _ (by norm_num), ?_⟩
      unfold data_reader.read_bool
      rw [read_back_unsigned "bool" 0 (by simp [size_t_max]) pre post]
      rfl
    | true =>
      refine ⟨decimal_text ((1 : Nat) : Int), write_number_ok w _ (by norm_num), ?_⟩
      unfold data_reader.read_bool
      rw [read_back_unsigned "bool" 1 (by simp [size_t_max]) pre post]
      rfl
  · refine ⟨decimal_text (n : Int), write_number_ok w _ (by simp only [Int.natAbs_ofNat]; omega), ?_⟩
    exact read_back_unsigned "size_t" n (by simp only [size_t_max]; omega) pre post
  · refine ⟨decimal_text i, write_number_ok w _ (by omega), ?_⟩
    exact read_back_signed "int64_t" _ _ i (by simp only [int64_min]; omega)
      (by simp only [int64_max]; omega) pre post
  · refine ⟨decimal_text j, write_number_ok w _ (by omega), ?_⟩
    exact read_back_signed "int32_t" _ _ j (by simp only [int32_min]; omega)
      (by simp only [int32_max]; omega) pre post

/-- C4 at `true`, the largest `size_t`, the smallest `int64_t` and the largest
`int32_t`, written by a fresh writer and read by a reader over that one
token. -/
theorem C4_numeric_roundtrip_witness :
    (18446744073709551615 ≤ size_t_max) ∧
    (int64_min ≤ -9223372036854775808 ∧ (-9223372036854775808 : Int) ≤ int64_max) ∧
    (int32_min ≤ 2147483647 ∧ (2147483647 : Int) ≤ int32_max) ∧
    (∃ tok, (data_writer.mk []).write_size_t 18446744073709551615
          = Except.ok { parts := [] ++ [tok] } ∧
        (data_reader.mk ([] ++ tok :: []) 0).read_size_t
          = (Except.ok 18446744073709551615, data_reader.mk ([] ++ tok :: []) (0 + 1))) ∧
    (∃ tok, (data_writer.mk []).write_int64_t (-9223372036854775808)
          = Except.ok { parts := [] ++ [tok] } ∧
        (data_reader.mk ([] ++ tok :: []) 0).read_int64_t
          = (Except.ok (-9223372036854775808), data_reader.mk ([] ++ tok :: []) (0 + 1))) :=
  ⟨by decide, by decide, by decide,
    (C4_numeric_roundtrip true 18446744073709551615 (-9223372036854775808) 2147483647
      (by decide) (by decide) (by decide) (data_writer.mk []) [] []).2.1,
    (C4_numeric_roundtrip true 18446744073709551615 (-9223372036854775808) 2147483647
      (by decide) (by decide) (by decide) (data_writer.mk []) [] []).2.2.1⟩

/-! ## Integer reads, token by token -/

theorem pre_clean_number_eq_strip (t : List Char) : pre_clean_number t = strip_separators t := by
  unfold pre_clean_number strip_separators
  rw [List.filter_filter]
  congr 1
  funext c
  cases h1 : (c == ',') <;> cases h2 : (c == ' ') <;> simp [bne, h1, h2]

theorem strip_separators_idem (t : List Char) :
    strip_separators (strip_separators t) = strip_separators t := by
  unfold strip_separators
  rw [List.filter_filter]
  simp

/-- An integer read of the token under the cursor: the decoded value and the
cursor one further, or the invalid-format exception quoting the token and the
reader as it was. -/
theorem read_number_at {α : Type} (from_chars : List Char → from_chars_result α)
    (type_name : String) (pre post : List (List Char)) (t : List Char) :
    read_number from_chars type_name (data_reader.mk (pre ++ t :: post) pre.length)
      = match decode_number from_chars t with
        | some v => (Except.ok v, data_reader.mk (pre ++ t :: post) (pre.length + 1))
        | none => (Except.error (not_valid t type_name),
            data_reader.mk (pre ++ t :: post) pre.length) := by
  unfold read_number decode_number
  simp only [parts_at_middle]
  split
  · rfl
  · cases hv : (from_chars (pre_clean_number t)).value with
    | none => rfl
    | some v => rfl

theorem decode_number_strip {α : Type} (from_chars : List Char → from_chars_result α)
    (t : List Char) :
    decode_number from_chars (strip_separators t) = decode_number from_chars t := by
  unfold decode_number
  simp only [pre_clean_number_eq_strip, strip_separators_idem]

theorem read_number_strip {α : Type} (from_chars : List Char → from_chars_result α)
    (type_name : String) (pre post : List (List Char)) (t : List Char) :
    (read_number from_chars type_name
        (data_reader.mk (pre ++ t :: post) pre.length)).1.toOption
      = (read_number from_chars type_name
          (data_reader.mk (pre ++ strip_separators t :: post) pre.length)).1.toOption ∧
    (read_number from_chars type_name
        (data_reader.mk (pre ++ t :: post) pre.length)).2.current
      = (read_number from_chars type_name
          (data_reader.mk (pre ++ strip_separators t :: post) pre.length)).2.current := by
  rw [read_number_at, read_number_at, decode_number_strip]
  cases decode_number from_chars t with
  | none => exact ⟨rfl, rfl⟩
  | some v => exact ⟨rfl, rfl⟩

/-- C5: for every token and each of `size_t`, `int64_t` and `int32_t`, the
read gives the same outcome (the same value, or a failure) and leaves the
cursor at the same place as the read of the token with every `,` and space
removed; `1,234` and `12 34` decode to 1234, and `12x34` fails with the
invalid-format exception. -/
theorem C5_legacy_separators (t : List Char) (pre post : List (List Char)) :
    ((data_reader.mk (pre ++ t :: post) pre.length).read_size_t.1.toOption
        = (data_reader.mk (pre ++ strip_separators t :: post) pre.length).read_size_t.1.toOption ∧
      (data_reader.mk (pre ++ t :: post) pre.length).read_size_t.2.current
        = (data_reader.mk (pre ++ strip_separators t :: post) pre.length).read_size_t.2.current) ∧
    ((data_reader.mk (pre ++ t :: post) pre.length).read_int64_t.1.toOption
        = (data_reader.mk (pre ++ strip_separators t :: post) pre.length).read_int64_t.1.toOption ∧
      (data_reader.mk (pre ++ t :: post) pre.length).read_int64_t.2.current
        = (data_reader.mk (pre ++ strip_separators t :: post) pre.length).read_int64_t.2.current) ∧
    ((data_reader.mk (pre ++ t :: post) pre.length).read_int32_t.1.toOption
        = (data_reader.mk (pre ++ strip_separators t :: post) pre.length).read_int32_t.1.toOption ∧
      (data_reader.mk (pre ++ t :: post) pre.length).read_int32_t.2.current
        = (data_reader.mk (pre ++ strip_separators t :: post) pre.length).read_int32_t.2.current) ∧
    (data_reader.mk ["1,234".toList] 0).read_size_t.1 = Except.ok 1234 ∧
    (data_reader.mk ["1,234".toList] 0).read_int64_t.1 = Except.ok 1234 ∧
    (data_reader.mk ["1,234".toList] 0).read_int32_t.1 = Except.ok 1234 ∧
    (data_reader.mk ["12 34".toList] 0).read_size_t.1 = Except.ok 1234 ∧
    (data_reader.mk ["12 34".toList] 0).read_int64_t.1 = Except.ok 1234 ∧
    (data_reader.mk ["12 34".toList] 0).read_int32_t.1 = Except.ok 1234 ∧
    (data_reader.mk ["12x34".toList] 0).read_size_t.1
      = Except.error (not_valid "12x34".toList "size_t") ∧
    (data_reader.mk ["12x34".toList] 0).read_int64_t.1
      = Except.error (not_valid "12x34".toList "int64_t") ∧
    (data_reader.mk ["12x34".toList] 0).read_int32_t.1
      = Except.error (not_valid "12x34".toList "int32_t") := by
  refine ⟨read_number_strip _ _ _ _ _, read_number_strip _ _ _ _ _,
    read_number_strip _ _ _ _ _, ?_, ?_, ?_, ?_, ?_, ?_, ?_, ?_, ?_⟩ <;> rfl

theorem takeWhile_full (s : List Char) (h : (s.takeWhile is_digit).length = s.length) :
    ∀ c ∈ s, is_digit c = true := by
  have e : s.takeWhile is_digit = s := (List.takeWhile_prefix is_digit).eq_of_length h
  exact List.takeWhile_eq_self_iff.mp e

theorem decode_unsigned_some (hi : Nat) (t : List Char)
    (h : is_unsigned_literal (strip_separators t))
    (hv : digits_value (strip_separators t) ≤ hi) :
    decode_number (from_chars_unsigned hi) t = some (digits_value (strip_separators t)) := by
  unfold decode_number from_chars_unsigned
  simp only [pre_clean_number_eq_strip, takeWhile_digits _ h.2, if_neg h.1, if_pos hv]
  simp

theorem decode_unsigned_none (hi : Nat) (t : List Char)
    (h : ¬ (is_unsigned_literal (strip_separators t) ∧ digits_value (strip_separators t) ≤ hi)) :
    decode_number (from_chars_unsigned hi) t = none := by
  unfold decode_number from_chars_unsigned
  simp only [pre_clean_number_eq_strip]
  generalize strip_separators t = s at h
  by_cases hnil : s.takeWhile is_digit = []
  · simp [hnil]
  · by_cases hle : digits_value (s.takeWhile is_digit) ≤ hi
    · simp only [if_neg hnil, if_pos hle]
      by_cases hlen : (s.takeWhile is_digit).length = s.length
      · exfalso
        have e : s.takeWhile is_digit = s := (List.takeWhile_prefix is_digit).eq_of_length hlen
        rw [e] at hnil hle
        exact h ⟨⟨hnil, takeWhile_full s hlen⟩, hle⟩
      · simp [hlen]
    · simp [hnil, hle]

theorem head_not_minus_of_literal (s : List Char) (h : is_unsigned_literal s) :
    (s.head? == some '-') = false := by
  cases s with
  | nil => rfl
  | cons c cs =>
    have hc : is_digit c = true := h.2 c (by simp)
    have : c ≠ '-' := by
      intro e
      subst e
      revert hc
      decide
    simpa using this

theorem decode_signed_some (lo hi : Int) (t : List Char)
    (h : is_signed_literal (strip_separators t))
    (hv : lo ≤ literal_value (strip_separators t) ∧ literal_value (strip_separators t) ≤ hi) :
    decode_number (from_chars_signed lo hi) t = some (literal_value (strip_separators t)) := by
  unfold decode_number from_chars_signed
  simp only [pre_clean_number_eq_strip]
  generalize strip_separators t = s at h hv
  rcases h with h | ⟨ds, rfl, h⟩
  · have hm := head_not_minus_of_literal s h
    have hm' : ¬ s.head? = some '-' := by simpa using hm
    simp only [literal_value, if_neg hm'] at hv ⊢
    simp only [hm, Bool.false_eq_true, if_false, takeWhile_digits _ h.2, if_neg h.1, if_pos hv]
    simp
  · simp only [literal_value, List.head?_cons, List.tail_cons, if_true] at hv ⊢
    simp only [List.head?_cons, List.tail_cons, beq_self_eq_true, if_true,
      takeWhile_digits _ h.2, if_neg h.1, if_pos hv, List.length_cons]
    simp

theorem decode_signed_none (lo hi : Int) (t : List Char)
    (h : ¬ (is_signed_literal (strip_separators t) ∧
      lo ≤ literal_value (strip_separators t) ∧ literal_value (strip_separators t) ≤ hi)) :
    decode_number (from_chars_signed lo hi) t = none := by
  unfold decode_number from_chars_signed
  simp only [pre_clean_number_eq_strip]
  generalize strip_separators t = s at h
  by_cases hm : s.head? = some '-'
  · obtain ⟨body, rfl⟩ : ∃ body, s = '-' :: body := by
      cases s with
      | nil => simp at hm
      | cons c cs =>
        simp only [List.head?_cons, Option.some.injEq] at hm
        exact ⟨cs, by rw [hm]⟩
    simp only [literal_value, List.head?_cons, List.tail_cons, if_true] at h
    simp only [List.head?_cons, List.tail_cons, beq_self_eq_true, if_true, List.length_cons]
    by_cases hnil : body.takeWhile is_digit = []
    · simp [hnil]
    · by_cases hr : lo ≤ -(digits_value (body.takeWhile is_digit) : Int) ∧
          -(digits_value (body.takeWhile is_digit) : Int) ≤ hi
      · simp only [if_neg hnil, if_pos hr]
        by_cases hlen : (body.takeWhile is_digit).length = body.length
        · exfalso
          have e : body.takeWhile is_digit = body :=
            (List.takeWhile_prefix is_digit).eq_of_length hlen
          rw [e] at hnil hr
          exact h ⟨Or.inr ⟨body, rfl, hnil, takeWhile_full body hlen⟩, hr⟩
        · simp [hlen]
      · simp [hnil, hr]
  · have hm' : (s.head? == some '-') = false := by simpa using hm
    simp only [literal_value, if_neg hm] at h
    simp only [hm', Bool.false_eq_true, if_false]
    by_cases hnil : s.takeWhile is_digit = []
    · simp [hnil]
    · by_cases hr : lo ≤ (digits_value (s.takeWhile is_digit) : Int) ∧
          (digits_value (s.takeWhile is_digit) : Int) ≤ hi
      · simp only [if_neg hnil, if_pos hr]
        by_cases hlen : (s.takeWhile is_digit).length = s.length
        · exfalso
          have e : s.takeWhile is_digit = s :=
            (List.takeWhile_prefix is_digit).eq_of_length hlen
          rw [e] at hnil hr
          exact h ⟨Or.inl ⟨hnil, takeWhile_full s hlen⟩, hr⟩
        · simp [hlen]
      · simp [hnil, hr]

theorem read_unsigned_fails_iff (type_name : String) (hi : Nat) (t : List Char)
    (pre post : List (List Char)) :
    (∃ m, (read_number (from_chars_unsigned hi) type_name
        (data_reader.mk (pre ++ t :: post) pre.length)).1
          = Except.error (exception.budget_exception m)) ↔
      ¬ (is_unsigned_literal (strip_separators t) ∧ digits_value (strip_separators t) ≤ hi) := by
  rw [read_number_at]
  constructor
  · rintro ⟨m, hm⟩ hlit
    rw [decode_unsigned_some hi t hlit.1 hlit.2] at hm
    simp at hm
  · intro h
    rw [decode_unsigned_none hi t h]
    exact ⟨_, rfl⟩

theorem read_signed_fails_iff (type_name : String) (lo hi : Int) (t : List Char)
    (pre post : List (List Char)) :
    (∃ m, (read_number (from_chars_signed lo hi) type_name
        (data_reader.mk (pre ++ t :: post) pre.length)).1
          = Except.error (exception.budget_exception m)) ↔
      ¬ (is_signed_literal (strip_separators t) ∧
        lo ≤ literal_value (strip_separators t) ∧ literal_value (strip_separators t) ≤ hi) := by
  rw [read_number_at]
  constructor
  · rintro ⟨m, hm⟩ hlit
    rw [decode_signed_some lo hi t hlit.1 hlit.2] at hm
    simp at hm
  · intro h
    rw [decode_signed_none lo hi t h]
    exact ⟨_, rfl⟩

/-- C6: for each of `size_t`, `int64_t` and `int32_t`, the read of a token
fails with the invalid-format exception if and only if the token, its commas
and spaces removed, is not as a whole a decimal literal of the type (one or
more digits, after a `-` for the signed types only) with a value in the range
of the type.  `12x34` and the empty token fail at each type, `2147483648`
fails as an `int32_t` and `18446744073709551616` as a `size_t`, the cursor
staying where it was; `+5` fails, and `-5` fails as a `size_t` while it is
read as an `int32_t`. -/
theorem C6_no_silent_truncation (t : List Char) (pre post : List (List Char)) :
    ((∃ m, (data_reader.mk (pre ++ t :: post) pre.length).read_size_t.1
          = Except.error (exception.budget_exception m)) ↔
      ¬ (is_unsigned_literal (strip_separators t) ∧
          digits_value (strip_separators t) ≤ size_t_max)) ∧
    ((∃ m, (data_reader.mk (pre ++ t :: post) pre.length).read_int64_t.1
          = Except.error (exception.budget_exception m)) ↔
      ¬ (is_signed_literal (strip_separators t) ∧
          int64_min ≤ literal_value (strip_separators t) ∧
          literal_value (strip_separators t) ≤ int64_max)) ∧
    ((∃ m, (data_reader.mk (pre ++ t :: post) pre.length).read_int32_t.1
          = Except.error (exception.budget_exception m)) ↔
      ¬ (is_signed_literal (strip_separators t) ∧
          int32_min ≤ literal_value (strip_separators t) ∧
          literal_value (strip_separators t) ≤ int32_max)) ∧
    (data_reader.mk ["12x34".toList] 0).read_size_t
      = (Except.error (not_valid "12x34".toList "size_t"), data_reader.mk ["12x34".toList] 0) ∧
    (data_reader.mk ["12x34".toList] 0).read_int64_t
      = (Except.error (not_valid "12x34".toList "int64_t"), data_reader.mk ["12x34".toList] 0) ∧
    (data_reader.mk ["12x34".toList] 0).read_int32_t
      = (Except.error (not_valid "12x34".toList "int32_t"), data_reader.mk ["12x34".toList] 0) ∧
    (data_reader.mk [[]] 0).read_size_t
      = (Except.error (not_valid [] "size_t"), data_reader.mk [[]] 0) ∧
    (data_reader.mk [[]] 0).read_int64_t
      = (Except.error (not_valid [] "int64_t"), data_reader.mk [[]] 0) ∧
    (data_reader.mk [[]] 0).read_int32_t
      = (Except.error (not_valid [] "int32_t"), data_reader.mk [[]] 0) ∧
    (data_reader.mk ["2147483648".toList] 0).read_int32_t
      = (Except.error (not_valid "2147483648".toList "int32_t"),
          data_reader.mk ["2147483648".toList] 0) ∧
    (data_reader.mk ["18446744073709551616".toList] 0).read_size_t
      = (Except.error (not_valid "18446744073709551616".toList "size_t"),
          data_reader.mk ["18446744073709551616".toList] 0) ∧
    (data_reader.mk ["+5".toList] 0).read_int64_t
      = (Except.error (not_valid "+5".toList "int64_t"), data_reader.mk ["+5".toList] 0) ∧
    (data_reader.mk ["-5".toList] 0).read_size_t
      = (Except.error (not_valid "-5".toList "size_t"), data_reader.mk ["-5".toList] 0) ∧
    (data_reader.mk ["-5".toList] 0).read_int32_t
      = (Except.ok (-5), data_reader.mk ["-5".toList] 1) := by
  refine ⟨read_unsigned_fails_iff _ _ _ _ _, read_signed_fails_iff _ _ _ _ _ _,
    read_signed_fails_iff _ _ _ _ _ _, ?_, ?_, ?_, ?_, ?_, ?_, ?_, ?_, ?_, ?_, ?_⟩ <;> rfl

/-! ## Reading past the end, `more` and `peek` -/

theorem parts_at_end (r : data_reader) (h : r.more = false) :
    parts_at r.parts r.current = Except.error exception.out_of_range := by
  unfold data_reader.more at h
  have hle : r.parts.length ≤ r.current := by simpa using h
  unfold parts_at
  rw [List.getElem?_eq_none hle]

/-- C7: in a reader whose cursor has reached the number of fields, every
typed read (`bool`, `size_t`, `int64_t`, `int32_t`, `double`, string, date,
money) and `peek()` throw `std::out_of_range`, which is not the
`budget_exception` of a bad format, and the reader is left as it was. -/
theorem C7_read_past_end {D Dt Mn : Type} (strtod : List Char → D × Nat)
    (date_from_string : List Char → Except exception Dt)
    (money_from_string : List Char → Except exception Mn)
    (r : data_reader) (h : r.more = false) :
    r.read_bool = (Except.error exception.out_of_range, r) ∧
    r.read_size_t = (Except.error exception.out_of_range, r) ∧
    r.read_int64_t = (Except.error exception.out_of_range, r) ∧
    r.read_int32_t = (Except.error exception.out_of_range, r) ∧
    r.read_double strtod = (Except.error exception.out_of_range, r) ∧
    r.read_string = (Except.error exception.out_of_range, r) ∧
    r.read_with date_from_string = (Except.error exception.out_of_range, r) ∧
    r.read_with money_from_string = (Except.error exception.out_of_range, r) ∧
    r.peek = (Except.error exception.out_of_range, r) ∧
    (∀ m, exception.out_of_range ≠ exception.budget_exception m) := by
  have hat := parts_at_end r h
  refine ⟨?_, ?_, ?_, ?_, ?_, ?_, ?_, ?_, ?_, ?_⟩
  · simp only [data_reader.read_bool, read_number, hat]
  · simp only [data_reader.read_size_t, read_number, hat]
  · simp only [data_reader.read_int64_t, read_number, hat]
  · simp only [data_reader.read_int32_t, read_number, hat]
  · simp only [data_reader.read_double, hat]
  · simp only [data_reader.read_string, hat]
  · simp only [data_reader.read_with, hat]
  · simp only [data_reader.read_with, hat]
  · simp only [data_reader.peek, hat]
  · intro m hm
    cases hm

/-- C7 at a reader over zero fields and at a reader that has read its only
field. -/
theorem C7_read_past_end_witness :
    (data_reader.mk [] 0).more = false ∧
    (data_reader.mk [['7']] 1).more = false ∧
    (data_reader.mk [] 0).read_size_t
      = (Except.error exception.out_of_range, data_reader.mk [] 0) ∧
    (data_reader.mk [['7']] 1).peek
      = (Except.error exception.out_of_range, data_reader.mk [['7']] 1) :=
  ⟨by decide, by decide,
    (C7_read_past_end (fun _ => ((0 : Nat), 0)) (fun _ => Except.ok ())
      (fun _ => Except.ok ()) (data_reader.mk [] 0) (by decide)).2.1,
    (C7_read_past_end (fun _ => ((0 : Nat), 0)) (fun _ => Except.ok ())
      (fun _ => Except.ok ()) (data_reader.mk [['7']] 1) (by decide)).2.2.2.2.2.2.2.2.1⟩

/-- C10: `more()` is true exactly when the cursor is below the number of
fields; then `peek()` returns the token that the next string read returns
and leaves the reader as it is, so that after any number of `peek()` calls a
further `peek()` and a string read still return that token. -/
theorem C10_peek_more (r : data_reader) :
    (r.more = true ↔ r.current < r.parts.length) ∧
    (r.more = true →
      ∃ tok, r.peek = (Except.ok tok, r) ∧
        r.read_string = (Except.ok tok, { r with current := r.current + 1 }) ∧
        ∀ n : Nat,
          (Nat.iterate (fun s => (data_reader.peek s).2) n r).peek = (Except.ok tok, r) ∧
          (Nat.iterate (fun s => (data_reader.peek s).2) n r).read_string
            = (Except.ok tok, { r with current := r.current + 1 })) := by
  refine ⟨by simp [data_reader.more], ?_⟩
  intro h
  have hlt : r.current < r.parts.length := by simpa [data_reader.more] using h
  have hat : parts_at r.parts r.current = Except.ok (r.parts[r.current]) := by
    unfold parts_at
    rw [List.getElem?_eq_getElem hlt]
  have hiter : ∀ n : Nat, Nat.iterate (fun s => (data_reader.peek s).2) n r = r := by
    intro n
    induction n with
    | zero => rfl
    | succ n ih =>
      rw [Function.iterate_succ_apply']
      rw [ih]
      rfl
  refine ⟨r.parts[r.current], ?_, ?_, ?_⟩
  · simp only [data_reader.peek, hat]
  · simp only [data_reader.read_string, hat]
  · intro n
    rw [hiter n]
    exact ⟨by simp only [data_reader.peek, hat], by simp only [data_reader.read_string, hat]⟩

/-- C10 at a reader over the fields `a:b` and `c`, the cursor on the first. -/
theorem C10_peek_more_witness :
    (data_reader.mk [['a', ':', 'b'], ['c']] 0).more = true ∧
    (∃ tok, (data_reader.mk [['a', ':', 'b'], ['c']] 0).peek
          = (Except.ok tok, data_reader.mk [['a', ':', 'b'], ['c']] 0) ∧
        (data_reader.mk [['a', ':', 'b'], ['c']] 0).read_string
          = (Except.ok tok, { data_reader.mk [['a', ':', 'b'], ['c']] 0 with
              current := (data_reader.mk [['a', ':', 'b'], ['c']] 0).current + 1 }) ∧
        ∀ n : Nat,
          (Nat.iterate (fun s => (data_reader.peek s).2) n
              (data_reader.mk [['a', ':', 'b'], ['c']] 0)).peek
            = (Except.ok tok, data_reader.mk [['a', ':', 'b'], ['c']] 0) ∧
          (Nat.iterate (fun s => (data_reader.peek s).2) n
              (data_reader.mk [['a', ':', 'b'], ['c']] 0)).read_string
            = (Except.ok tok, { data_reader.mk [['a', ':', 'b'], ['c']] 0 with
                current := (data_reader.mk [['a', ':', 'b'], ['c']] 0).current + 1 })) :=
  ⟨by decide, (C10_peek_more (data_reader.mk [['a', ':', 'b'], ['c']] 0)).2 (by decide)⟩

/-! ## The writer -/

theorem in_range_natAbs {Dt Mn : Type} (c : write_call Dt Mn) (h : c.in_range = true) :
    match c with
    | write_call.size_t v => ((v : Int)).natAbs < 2 ^ 64
    | write_call.int64_t v => v.natAbs < 2 ^ 64
    | write_call.int32_t v => v.natAbs < 2 ^ 64
    | _ => True := by
  cases c with
  | bool v => trivial
  | size_t v =>
    simp only [write_call.in_range, size_t_max, decide_eq_true_eq] at h
    simp only [Int.natAbs_ofNat]
    omega
  | int64_t v =>
    simp only [write_call.in_range, int64_min, int64_max, Bool.and_eq_true,
      decide_eq_true_eq] at h
    show v.natAbs < 2 ^ 64
    omega
  | int32_t v =>
    simp only [write_call.in_range, int32_min, int32_max, Bool.and_eq_true,
      decide_eq_true_eq] at h
    show v.natAbs < 2 ^ 64
    omega
  | string v => trivial
  | date v => trivial
  | money v => trivial

/-- One call of `operator<<` with a value of its type appends exactly one
token and keeps the earlier ones. -/
theorem write_appends_one {Dt Mn : Type} (date_to_string : Dt → List Char)
    (money_to_string : Mn → List Char) (w : data_writer) (c : write_call Dt Mn)
    (h : c.in_range = true) :
    ∃ tok, w.write date_to_string money_to_string c
      = Except.ok { parts := w.parts ++ [tok] } := by
  have hr := in_range_natAbs c h
  cases c with
  | bool v =>
    cases v with
    | false =>
      refine ⟨decimal_text 0, ?_⟩
      show write_number w 0 = _
      exact write_number_ok w 0 (by norm_num)
    | true =>
      refine ⟨decimal_text 1, ?_⟩
      show write_number w 1 = _
      exact write_number_ok w 1 (by norm_num)
  | size_t v => exact ⟨_, write_number_ok w _ hr⟩
  | int64_t v => exact ⟨_, write_number_ok w _ hr⟩
  | int32_t v => exact ⟨_, write_number_ok w _ hr⟩
  | string v => exact ⟨v, rfl⟩
  | date v => exact ⟨date_to_string v, rfl⟩
  | money v => exact ⟨money_to_string v, rfl⟩

theorem write_all_appends {Dt Mn : Type} (date_to_string : Dt → List Char)
    (money_to_string : Mn → List Char) :
    ∀ (calls : List (write_call Dt Mn)) (w : data_writer),
      (∀ c ∈ calls, c.in_range = true) →
      ∃ toks : List (List Char), toks.length = calls.length ∧
        ∀ k : Nat, data_writer.write_all date_to_string money_to_string w (calls.take k)
          = Except.ok { parts := w.parts ++ toks.take k } := by
  intro calls
  induction calls with
  | nil =>
    intro w _
    exact ⟨[], rfl, fun k => by simp [data_writer.write_all]⟩
  | cons c cs ih =>
    intro w h
    obtain ⟨tok, htok⟩ := write_appends_one date_to_string money_to_string w c (h c (by simp))
    obtain ⟨toks, hlen, htoks⟩ := ih { parts := w.parts ++ [tok] }
      (fun x hx => h x (by simp [hx]))
    refine ⟨tok :: toks, by simp [hlen], ?_⟩
    intro k
    cases k with
    | zero => simp [data_writer.write_all]
    | succ k =>
      simp only [List.take_succ_cons, data_writer.write_all, htok, htoks k]
      simp

theorem count_delim_esc (t : List Char) : (esc t).count ':' = 0 :=
  List.count_eq_zero.mpr (esc_no_delim t)

theorem count_delim_line :
    ∀ (t : List Char) (ts : List (List Char)),
      (List.intercalate [':'] ((t :: ts).map esc)).count ':' = ts.length := by
  intro t ts
  induction ts generalizing t with
  | nil =>
    have e : List.intercalate [':'] [esc t] = esc t := by simp [List.intercalate]
    simp only [List.map_cons, List.map_nil, e, List.length_nil]
    exact count_delim_esc t
  | cons u us ih =>
    have e : List.intercalate [':'] ((t :: u :: us).map esc)
        = esc t ++ ':' :: List.intercalate [':'] ((u :: us).map esc) := by
      simp only [List.map_cons]
      rw [intercalate_cons, intercalate_cons]
      simp
    rw [e, List.count_append, count_delim_esc, List.count_cons_self, ih u]
    simp

/-- C8: any sequence of `n ≥ 1` calls of `operator<<` with values of their
types succeeds; each call appends exactly one token and keeps the earlier
ones (after the first `k` calls the writer holds the first `k` of the final
tokens after those it began with); `to_string()` is then the escaped tokens
in call order joined by single `:`; no escaped token holds a `:`; and the line
of a writer that began empty holds exactly `n - 1` characters `:`. -/
theorem C8_writer_line_shape {Dt Mn : Type} (date_to_string : Dt → List Char)
    (money_to_string : Mn → List Char) (w : data_writer)
    (calls : List (write_call Dt Mn)) (hn : 1 ≤ calls.length)
    (hr : ∀ c ∈ calls, c.in_range = true) :
    ∃ toks : List (List Char), toks.length = calls.length ∧
      (∀ k : Nat, data_writer.write_all date_to_string money_to_string w (calls.take k)
        = Except.ok { parts := w.parts ++ toks.take k }) ∧
      data_writer.write_all date_to_string money_to_string w calls
        = Except.ok { parts := w.parts ++ toks } ∧
      (data_writer.mk (w.parts ++ toks)).to_string
        = List.intercalate [':'] ((w.parts ++ toks).map parse_output_part) ∧
      (∀ tok : List Char, ':' ∉ parse_output_part tok) ∧
      (data_writer.mk (w.parts ++ toks)).to_string.count ':'
        = (w.parts ++ toks).length - 1 := by
  obtain ⟨toks, hlen, htoks⟩ := write_all_appends date_to_string money_to_string calls w hr
  refine ⟨toks, hlen, htoks, ?_, ?_, ?_, ?_⟩
  · have := htoks calls.length
    rw [List.take_length] at this
    rw [this]
    congr 2
    rw [← hlen, List.take_length]
  · exact parse_output_eq_intercalate _
  · intro tok
    rw [parse_output_part_eq]
    exact esc_no_delim tok
  · simp only [data_writer.to_string, parse_output_eq_intercalate]
    have hfun : parse_output_part = esc := funext parse_output_part_eq
    rw [hfun]
    cases hps : w.parts ++ toks with
    | nil =>
      have : (w.parts ++ toks).length = 0 := by rw [hps]; rfl
      simp only [List.length_append] at this
      omega
    | cons p ps =>
      rw [count_delim_line]
      simp

/-- C8 at three calls on a fresh writer: the string `a:b`, the `size_t` 7 and
the `bool` true. -/
theorem C8_writer_line_shape_witness :
    (1 ≤ [write_call.string ['a', ':', 'b'], write_call.size_t 7,
        (write_call.bool true : write_call Unit Unit)].length) ∧
    (∀ c ∈ [write_call.string ['a', ':', 'b'], write_call.size_t 7,
        (write_call.bool true : write_call Unit Unit)], c.in_range = true) ∧
    ∃ toks : List (List Char), toks.length = 3 ∧
      data_writer.write_all (fun _ => []) (fun _ => []) (data_writer.mk [])
          [write_call.string ['a', ':', 'b'], write_call.size_t 7,
            (write_call.bool true : write_call Unit Unit)]
        = Except.ok { parts := [] ++ toks } ∧
      (data_writer.mk ([] ++ toks)).to_string.count ':' = ([] ++ toks).length - 1 := by
  refine ⟨by decide, by decide, ?_⟩
  obtain ⟨toks, h1, _, h3, _, _, h6⟩ :=
    C8_writer_line_shape (fun _ => []) (fun _ => []) (data_writer.mk [])
      [write_call.string ['a', ':', 'b'], write_call.size_t 7,
        (write_call.bool true : write_call Unit Unit)] (by decide) (by decide)
  exact ⟨toks, h1, h3, h6⟩

theorem decimal_text_canonical (v : Int) : canonical_decimal v (decimal_text v) := by
  refine ⟨decimal_digits v.natAbs, rfl, decimal_digits_ne_nil _, decimal_digits_all _,
    decimal_digits_head _, decimal_digits_value _⟩

theorem decimal_text_no_separator (v : Int) :
    ',' ∉ decimal_text v ∧ ' ' ∉ decimal_text v := by
  constructor
  · intro h
    rcases decimal_text_chars v _ h with h1 | h1
    · revert h1; decide
    · revert h1; decide
  · intro h
    rcases decimal_text_chars v _ h with h1 | h1
    · revert h1; decide
    · revert h1; decide

theorem decimal_text_zero : decimal_text 0 = ['0'] := by
  simp [decimal_text, decimal_digits]

theorem decimal_text_one : decimal_text 1 = ['1'] := by
  simp only [decimal_text, decimal_digits]
  norm_num
  rfl

theorem write_number_form (w : data_writer) (v : Int) (h : v.natAbs < 2 ^ 64) :
    ∃ tok, write_number w v = Except.ok { parts := w.parts ++ [tok] } ∧
      canonical_decimal v tok ∧ ',' ∉ tok ∧ ' ' ∉ tok ∧ pre_clean_number tok = tok :=
  ⟨decimal_text v, write_number_ok w v h, decimal_text_canonical v,
    (decimal_text_no_separator v).1, (decimal_text_no_separator v).2,
    pre_clean_number_digits _ (decimal_text_chars v)⟩

/-- C9: a `bool` is written as exactly `0` (false) or `1` (true); every
`size_t`, `int64_t` and `int32_t` is written as its canonical decimal text
(digits only, one leading `-` for a negative value, no leading zero but for
the single digit `0`); no such token holds a comma or a space, and
`pre_clean_number` leaves it unchanged. -/
theorem C9_numeric_token_form (b : Bool) (n : Nat) (i j : Int)
    (hn : n ≤ size_t_max) (hi : int64_min ≤ i ∧ i ≤ int64_max)
    (hj : int32_min ≤ j ∧ j ≤ int32_max) (w : data_writer) :
    (w.write_bool b = Except.ok { parts := w.parts ++ [if b then ['1'] else ['0']] } ∧
      pre_clean_number (if b then ['1'] else ['0']) = (if b then ['1'] else ['0'])) ∧
    (∃ tok, w.write_size_t n = Except.ok { parts := w.parts ++ [tok] } ∧
      canonical_decimal (n : Int) tok ∧ ',' ∉ tok ∧ ' ' ∉ tok ∧ pre_clean_number tok = tok) ∧
    (∃ tok, w.write_int64_t i = Except.ok { parts := w.parts ++ [tok] } ∧
      canonical_decimal i tok ∧ ',' ∉ tok ∧ ' ' ∉ tok ∧ pre_clean_number tok = tok) ∧
    (∃ tok, w.write_int32_t j = Except.ok { parts := w.parts ++ [tok] } ∧
      canonical_decimal j tok ∧ ',' ∉ tok ∧ ' ' ∉ tok ∧ pre_clean_number tok = tok) := by
  simp only [size_t_max, int64_min, int64_max, int32_min, int32_max] at hn hi hj
  refine ⟨?_, ?_, ?_, ?_⟩
  · cases b with
    | false =>
      refine ⟨?_, by decide⟩
      show write_number w 0 = _
      rw [write_number_ok w 0 (by norm_num), decimal_text_zero]
      rfl
    | true =>
      refine ⟨?_, by decide⟩
      show write_number w 1 = _
      rw [write_number_ok w 1 (by norm_num), decimal_text_one]
      rfl
  · exact write_number_form w (n : Int) (by simp only [Int.natAbs_ofNat]; omega)
  · exact write_number_form w i (by omega)
  · exact write_number_form w j (by omega)

/-- C9 at `false`, the largest `size_t`, the smallest `int64_t` and -1 as an
`int32_t`. -/
theorem C9_numeric_token_form_witness :
    (18446744073709551615 ≤ size_t_max) ∧
    (int64_min ≤ -9223372036854775808 ∧ (-9223372036854775808 : Int) ≤ int64_max) ∧
    (int32_min ≤ -1 ∧ (-1 : Int) ≤ int32_max) ∧
    (data_writer.mk []).write_bool false
      = Except.ok { parts := [] ++ [if false then ['1'] else ['0']] } ∧
    (∃ tok, (data_writer.mk []).write_int32_t (-1) = Except.ok { parts := [] ++ [tok] } ∧
      canonical_decimal (-1) tok ∧ ',' ∉ tok ∧ ' ' ∉ tok ∧ pre_clean_number tok = tok) :=
  ⟨by decide, by decide, by decide,
    (C9_numeric_token_form false 18446744073709551615 (-9223372036854775808) (-1)
      (by decide) (by decide) (by decide) (data_writer.mk [])).1.1,
    (C9_numeric_token_form false 18446744073709551615 (-9223372036854775808) (-1)
      (by decide) (by decide) (by decide) (data_writer.mk [])).2.2.2⟩

/-! ## The filter iterator -/

theorem skip_while_eq {α : Type} (p : α → Bool) (last : Nat) :
    ∀ (rest : List α) (first : Nat), first + rest.length = last →
      skip_while p last rest first
        = first + (rest.takeWhile (fun x => !p x)).length := by
  intro rest
  induction rest with
  | nil => intro first _; simp [skip_while]
  | cons x rest ih =>
    intro first h
    simp only [List.length_cons] at h
    have hne : first ≠ last := by omega
    cases hp : p x with
    | true => simp [skip_while, List.takeWhile, hp]
    | false =>
      have hc : first ≠ last ∧ (!p x) = true := ⟨hne, by simp [hp]⟩
      simp only [skip_while, if_pos hc]
      rw [ih (first + 1) (by omega), List.takeWhile_cons]
      simp only [hp, Bool.not_false, if_true, List.length_cons]
      omega

theorem skip_while_at {α : Type} (p : α → Bool) (c : List α) (last : Nat)
    (hlast : last ≤ c.length) :
    ∀ (rest : List α) (first : Nat), rest = c.drop first → first ≤ last →
      first ≤ skip_while p last rest first ∧ skip_while p last rest first ≤ last ∧
      (skip_while p last rest first = last ∨
        ∃ x, c.get? (skip_while p last rest first) = some x ∧ p x = true) := by
  intro rest
  induction rest with
  | nil =>
    intro first h hle
    have hlen : c.length ≤ first := by
      have := congrArg List.length h
      simp only [List.length_nil, List.length_drop] at this
      omega
    simp only [skip_while]
    exact ⟨Nat.le_refl _, hle, Or.inl (by omega)⟩
  | cons x rest ih =>
    intro first h hle
    have hx : c.get? first = some x := by
      rw [List.get?_eq_getElem?, ← List.head?_drop, ← h]
      rfl
    have hrest : rest = c.drop (first + 1) := by
      have := congrArg List.tail h
      simp only [List.tail_cons, List.tail_drop] at this
      exact this
    by_cases hcond : first ≠ last ∧ (!p x) = true
    · simp only [skip_while, if_pos hcond]
      obtain ⟨h1, h2, h3⟩ := ih (first + 1) hrest (by omega)
      exact ⟨by omega, h2, h3⟩
    · simp only [skip_while, if_neg hcond]
      refine ⟨Nat.le_refl _, hle, ?_⟩
      by_cases he : first = last
      · exact Or.inl he
      · right
        refine ⟨x, hx, ?_⟩
        cases hp : p x with
        | true => rfl
        | false => exact absurd ⟨he, by simp [hp]⟩ hcond

theorem incr_at {α : Type} (it : filter_iterator α) (h1 : it.first ≤ it.last)
    (h2 : it.last ≤ it.container.length) :
    it.incr.container = it.container ∧ it.incr.last = it.last ∧
    it.incr.filter = it.filter ∧ it.first ≤ it.incr.first ∧ it.incr.first ≤ it.incr.last ∧
    (it.incr.first = it.incr.last ∨
      ∃ x, it.incr.deref = some x ∧ it.incr.filter x = true) := by
  unfold filter_iterator.incr
  by_cases he : it.first = it.last
  · rw [if_pos he]
    exact ⟨rfl, rfl, rfl, Nat.le_refl _, h1, Or.inl he⟩
  · rw [if_neg he]
    obtain ⟨a, b, c⟩ := skip_while_at it.filter it.container it.last h2
      (it.container.drop (it.first + 1)) (it.first + 1) rfl (by omega)
    exact ⟨rfl, rfl, rfl, by simp only; omega, b, c⟩

theorem iterate_incr_at {α : Type} (c : List α) (first last : Nat) (p : α → Bool)
    (h1 : first ≤ last) (h2 : last ≤ c.length) (n : Nat) :
    (Nat.iterate filter_iterator.incr n (filter_iterator.make c first last p)).container = c ∧
    (Nat.iterate filter_iterator.incr n (filter_iterator.make c first last p)).last = last ∧
    (Nat.iterate filter_iterator.incr n (filter_iterator.make c first last p)).filter = p ∧
    (Nat.iterate filter_iterator.incr n (filter_iterator.make c first last p)).first ≤ last ∧
    ((Nat.iterate filter_iterator.incr n (filter_iterator.make c first last p)).first = last ∨
      ∃ x, (Nat.iterate filter_iterator.incr n (filter_iterator.make c first last p)).deref
          = some x ∧ p x = true) := by
  induction n with
  | zero =>
    obtain ⟨_, b, d⟩ := skip_while_at p c last h2 (c.drop first) first rfl h1
    exact ⟨rfl, rfl, rfl, b, d⟩
  | succ n ih =>
    rw [Function.iterate_succ_apply']
    generalize Nat.iterate filter_iterator.incr n (filter_iterator.make c first last p) = it at ih
    obtain ⟨hc, hl, hf, hle, _⟩ := ih
    obtain ⟨a1, a2, a3, _, a5, a6⟩ := incr_at it (by omega) (by rw [hl, hc]; exact h2)
    rw [a2, hl, a3, hf] at a6
    rw [a2, hl] at a5
    exact ⟨a1.trans hc, a2.trans hl, a3.trans hf, a5, a6⟩

theorem dropWhile_not_shape {α : Type} (p : α → Bool) (l : List α) :
    l.dropWhile (fun x => !p x) = [] ∨
      ∃ x rest, l.dropWhile (fun x => !p x) = x :: rest ∧ p x = true := by
  induction l with
  | nil => exact Or.inl rfl
  | cons a l ih =>
    cases hp : p a with
    | true =>
      right
      exact ⟨a, l, by simp [List.dropWhile, hp], hp⟩
    | false =>
      have : (a :: l).dropWhile (fun x => !p x) = l.dropWhile (fun x => !p x) := by
        simp [List.dropWhile, hp]
      rw [this]
      exact ih

theorem filter_dropWhile_not {α : Type} (p : α → Bool) (l : List α) :
    (l.dropWhile (fun x => !p x)).filter p = l.filter p := by
  induction l with
  | nil => rfl
  | cons a l ih =>
    cases hp : p a with
    | true => simp [List.dropWhile, hp]
    | false =>
      have : (a :: l).dropWhile (fun x => !p x) = l.dropWhile (fun x => !p x) := by
        simp [List.dropWhile, hp]
      rw [this, ih]
      simp [List.filter, hp]

theorem drop_takeWhile_length {α : Type} (q : α → Bool) (l : List α) :
    l.drop (l.takeWhile q).length = l.dropWhile q := by
  induction l with
  | nil => rfl
  | cons a l ih =>
    cases hq : q a with
    | true => simp [List.takeWhile, List.dropWhile, hq, ih]
    | false => simp [List.takeWhile, List.dropWhile, hq]

/-- Where the skipping loop stops, started at `first` in a range that ends
with the container. -/
theorem drop_skip_while {α : Type} (p : α → Bool) (c : List α) (first : Nat)
    (h : first ≤ c.length) :
    skip_while p c.length (c.drop first) first ≤ c.length ∧
    c.drop (skip_while p c.length (c.drop first) first)
      = (c.drop first).dropWhile (fun x => !p x) := by
  have hs := skip_while_eq p c.length (c.drop first) first
    (by rw [List.length_drop]; omega)
  rw [hs]
  constructor
  · have := (List.takeWhile_prefix (fun x => !p x) (l := c.drop first)).length_le
    rw [List.length_drop] at this
    omega
  · rw [← drop_takeWhile_length, List.drop_drop]

theorem after_matches_begin {α : Type} (v : filter_view α) :
    after_matches v.container v.filter 0 v.begin := by
  obtain ⟨h1, h2⟩ := drop_skip_while v.filter v.container 0 (Nat.zero_le _)
  have hb : v.begin.first
      = skip_while v.filter v.container.length (v.container.drop 0) 0 := rfl
  refine ⟨rfl, rfl, rfl, h1, ?_, ?_⟩
  · rw [hb, h2]
    exact dropWhile_not_shape _ _
  · rw [hb, h2, filter_dropWhile_not]
    simp

theorem after_matches_incr {α : Type} (c : List α) (p : α → Bool) (j : Nat)
    (it : filter_iterator α) (h : after_matches c p j it) :
    after_matches c p (j + 1) it.incr := by
  obtain ⟨hc, hf, hl, hle, hshape, hfil⟩ := h
  unfold filter_iterator.incr
  by_cases he : it.first = it.last
  · rw [if_pos he]
    refine ⟨hc, hf, hl, hle, hshape, ?_⟩
    have hnil : c.drop it.first = [] := List.drop_of_length_le (by omega)
    rw [hnil] at hfil ⊢
    have hd : ((c.filter p).drop j).length = 0 := by rw [← hfil]; rfl
    rw [List.length_drop] at hd
    have : (c.filter p).drop (j + 1) = [] := List.drop_of_length_le (by omega)
    rw [this]
    rfl
  · rw [if_neg he]
    have hlt : it.first < c.length := by omega
    obtain ⟨h1, h2⟩ := drop_skip_while p c (it.first + 1) (by omega)
    rcases hshape with hnil | ⟨x, rest, hx, hpx⟩
    · have := congrArg List.length hnil
      simp only [List.length_drop, List.length_nil] at this
      omega
    · have hrest : c.drop (it.first + 1) = rest := by
        have := congrArg List.tail hx
        simp only [List.tail_drop, List.tail_cons] at this
        exact this
      refine ⟨hc, hf, hl, ?_, ?_, ?_⟩
      · simp only [hc, hf, hl]
        exact h1
      · simp only [hc, hf, hl]
        rw [h2]
        exact dropWhile_not_shape _ _
      · simp only [hc, hf, hl]
        rw [h2, filter_dropWhile_not, hrest]
        have e : (c.filter p).drop (j + 1) = ((c.filter p).drop j).tail := by
          rw [List.tail_drop]
        rw [e, ← hfil, hx]
        simp [List.filter, hpx]

theorem after_matches_iterate {α : Type} (v : filter_view α) (j : Nat) :
    after_matches v.container v.filter j (Nat.iterate filter_iterator.incr j v.begin) := by
  induction j with
  | zero => exact after_matches_begin v
  | succ j ih =>
    rw [Function.iterate_succ_apply']
    exact after_matches_incr _ _ _ _ ih

theorem end_first {α : Type} (v : filter_view α) : v.end_.first = v.container.length := by
  show skip_while v.filter v.container.length (v.container.drop v.container.length)
    v.container.length = _
  rw [List.drop_length]
  rfl

theorem after_matches_end_iff {α : Type} (c : List α) (p : α → Bool) (j : Nat)
    (it : filter_iterator α) (h : after_matches c p j it) :
    it.first = c.length ↔ (c.filter p).length ≤ j := by
  obtain ⟨hc, hf, hl, hle, hshape, hfil⟩ := h
  constructor
  · intro he
    have hnil : c.drop it.first = [] := List.drop_of_length_le (by omega)
    rw [hnil] at hfil
    have hd : ((c.filter p).drop j).length = 0 := by rw [← hfil]; rfl
    rw [List.length_drop] at hd
    omega
  · intro hk
    have hd : (c.filter p).drop j = [] := List.drop_of_length_le hk
    rw [hd] at hfil
    rcases hshape with hnil | ⟨x, rest, hx, hpx⟩
    · have := congrArg List.length hnil
      simp only [List.length_drop, List.length_nil] at this
      omega
    · rw [hx] at hfil
      simp [List.filter, hpx] at hfil

theorem after_matches_deref {α : Type} (c : List α) (p : α → Bool) (j : Nat)
    (it : filter_iterator α) (h : after_matches c p j it) :
    it.deref = (c.drop it.first).head? ∧ ((c.drop it.first).filter p).head? = (c.filter p).get? j ∧
    (it.first ≠ c.length → it.deref = (c.filter p).get? j) := by
  obtain ⟨hc, hf, hl, hle, hshape, hfil⟩ := h
  have h1 : it.deref = (c.drop it.first).head? := by
    unfold filter_iterator.deref
    rw [hc, List.get?_eq_getElem?, List.head?_drop]
  have h2 : ((c.drop it.first).filter p).head? = (c.filter p).get? j := by
    rw [hfil, List.get?_eq_getElem?, List.head?_drop]
  refine ⟨h1, h2, ?_⟩
  intro hne
  rcases hshape with hnil | ⟨x, rest, hx, hpx⟩
  · have := congrArg List.length hnil
    simp only [List.length_drop, List.length_nil] at this
    omega
  · rw [h1, ← h2, hx]
    simp [List.filter, hpx]

theorem to_vector_loop_eq {α : Type} (c : List α) (p : α → Bool) :
    ∀ (fuel j : Nat) (it : filter_iterator α) (copy : List α),
      after_matches c p j it → ((c.drop it.first).filter p).length < fuel →
      to_vector_loop fuel it (filter_view.mk c p).end_ copy
        = some (copy ++ (c.drop it.first).filter p) := by
  intro fuel
  induction fuel with
  | zero => intro j it copy _ h; omega
  | succ fuel ih =>
    intro j it copy hinv hfuel
    have hnext := after_matches_incr c p j it hinv
    have hderef := (after_matches_deref c p j it hinv).1
    obtain ⟨hc, hf, hl, hle, hshape, hfil⟩ := hinv
    have hend : (filter_view.mk c p).end_.first = c.length := end_first _
    by_cases he : it.first = c.length
    · have hnil : c.drop it.first = [] := List.drop_of_length_le (by omega)
      simp [to_vector_loop, filter_iterator.ne, hend, he]
    · rcases hshape with hnil | ⟨x, rest, hx, hpx⟩
      · have := congrArg List.length hnil
        simp only [List.length_drop, List.length_nil] at this
        omega
      · have hd : it.deref = some x := by rw [hderef, hx]; rfl
        have hfx : (c.drop it.first).filter p = x :: (c.drop it.incr.first).filter p := by
          rw [hnext.2.2.2.2.2, hfil]
          have e : (c.filter p).drop (j + 1) = ((c.filter p).drop j).tail := by
            rw [List.tail_drop]
          rw [e, ← hfil, hx]
          simp [List.filter, hpx]
        have hlen : ((c.drop it.incr.first).filter p).length < fuel := by
          rw [hfx] at hfuel
          simp only [List.length_cons] at hfuel
          omega
        have hrec := ih (j + 1) it.incr (copy ++ [x]) hnext hlen
        simp only [to_vector_loop, filter_iterator.ne, hend, he, ne_eq, not_false_eq_true,
          decide_True, if_true, hd]
        rw [hrec, hfx]
        simp

theorem to_vector_eq {α : Type} (v : filter_view α) (fuel : Nat)
    (h : (v.container.filter v.filter).length < fuel) :
    v.to_vector fuel = some (v.container.filter v.filter) := by
  have hinv := after_matches_begin v
  have hfil : (v.container.drop v.begin.first).filter v.filter = v.container.filter v.filter := by
    rw [hinv.2.2.2.2.2]
    rfl
  have := to_vector_loop_eq v.container v.filter fuel 0 v.begin [] hinv (by rw [hfil]; exact h)
  rw [hfil] at this
  simpa [filter_view.to_vector] using this

theorem iterate_eq_end_iff {α : Type} (v : filter_view α) (j : Nat) :
    (Nat.iterate filter_iterator.incr j v.begin).eq v.end_ = true
      ↔ (v.container.filter v.filter).length ≤ j := by
  have h := after_matches_end_iff _ _ _ _ (after_matches_iterate v j)
  simp only [filter_iterator.eq, end_first, decide_eq_true_eq]
  exact h

/-- C11: `to_vector()` returns exactly the elements of the container that
satisfy the predicate, each as often as it occurs and in the original order
(every fuel above their number is enough, so two runs give the same result);
the iterator reached from `begin()` by `j` increments, for `j` below that
number, differs from `end()` and is at the `j`-th such element, and after
that many increments it equals `end()`.  For the ids 1 to 5 and the predicate
`id is even` the result is `[2, 4]`. -/
theorem C11_filter_view_result {α : Type} (v : filter_view α) :
    (∀ fuel, (v.container.filter v.filter).length < fuel →
      v.to_vector fuel = some (v.container.filter v.filter)) ∧
    (∀ fuel fuel', (v.container.filter v.filter).length < fuel →
      (v.container.filter v.filter).length < fuel' →
      v.to_vector fuel = v.to_vector fuel') ∧
    (∀ j, j < (v.container.filter v.filter).length →
      (Nat.iterate filter_iterator.incr j v.begin).ne v.end_ = true ∧
      (Nat.iterate filter_iterator.incr j v.begin).deref
        = (v.container.filter v.filter).get? j) ∧
    (Nat.iterate filter_iterator.incr (v.container.filter v.filter).length v.begin).eq v.end_
      = true ∧
    (filter_view.mk [1, 2, 3, 4, 5] (fun n : Nat => n % 2 == 0)).to_vector 3
      = some [2, 4] := by
  refine ⟨fun fuel h => to_vector_eq v fuel h, ?_, ?_, ?_, by decide⟩
  · intro fuel fuel' h h'
    rw [to_vector_eq v fuel h, to_vector_eq v fuel' h']
  · intro j hj
    have hinv := after_matches_iterate v j
    have hne : (Nat.iterate filter_iterator.incr j v.begin).first ≠ v.container.length := by
      intro he
      have := (after_matches_end_iff _ _ _ _ hinv).mp he
      omega
    refine ⟨?_, (after_matches_deref _ _ _ _ hinv).2.2 hne⟩
    simp only [filter_iterator.ne, end_first, decide_eq_true_eq]
    exact hne
  · exact (iterate_eq_end_iff v _).mpr (Nat.le_refl _)

/-- C11 at the ids 1 to 5 and the predicate `id is even`, with fuel 6. -/
theorem C11_filter_view_result_witness :
    (([1, 2, 3, 4, 5].filter (fun n : Nat => n % 2 == 0)).length < 6) ∧
    (filter_view.mk [1, 2, 3, 4, 5] (fun n : Nat => n % 2 == 0)).to_vector 6
      = some ([1, 2, 3, 4, 5].filter (fun n : Nat => n % 2 == 0)) :=
  ⟨by decide,
    (C11_filter_view_result
      (filter_view.mk [1, 2, 3, 4, 5] (fun n : Nat => n % 2 == 0))).1 6 (by decide)⟩

theorem make_end_first {α : Type} (c : List α) (last : Nat) (p : α → Bool) :
    (filter_iterator.make c last last p).first = last := by
  show skip_while p last (c.drop last) last = last
  cases c.drop last with
  | nil => rfl
  | cons x rest => simp [skip_while]

/-- C16: every iterator obtained by the constructor over a range `first..last`
of a container (as `begin()` and `end()` are) and then by any number of
`operator++` calls is at `last` or at an element that satisfies the
predicate; when it differs from the end iterator of the range, dereferencing
it gives an element that satisfies the predicate. -/
theorem C16_filter_position_invariant {α : Type} (c : List α) (first last : Nat)
    (p : α → Bool) (h1 : first ≤ last) (h2 : last ≤ c.length) (n : Nat) :
    ((Nat.iterate filter_iterator.incr n (filter_iterator.make c first last p)).first
        = (Nat.iterate filter_iterator.incr n (filter_iterator.make c first last p)).last ∨
      ∃ x, (Nat.iterate filter_iterator.incr n (filter_iterator.make c first last p)).deref
          = some x ∧ p x = true) ∧
    ((Nat.iterate filter_iterator.incr n (filter_iterator.make c first last p)).ne
        (filter_iterator.make c last last p) = true →
      ∃ x, (Nat.iterate filter_iterator.incr n (filter_iterator.make c first last p)).deref
          = some x ∧ p x = true) := by
  obtain ⟨_, hl, _, _, hat⟩ := iterate_incr_at c first last p h1 h2 n
  constructor
  · rw [hl]
    exact hat
  · intro hne
    simp only [filter_iterator.ne, make_end_first, decide_eq_true_eq] at hne
    rcases hat with he | hx
    · exact absurd he hne
    · exact hx

/-- C16 at the container 1, 3, 4, 5, 6, the whole range, the predicate `even`
and one increment: the iterator is at 6. -/
theorem C16_filter_position_invariant_witness :
    (0 ≤ 5) ∧ (5 ≤ [1, 3, 4, 5, 6].length) ∧
    ((Nat.iterate filter_iterator.incr 1
        (filter_iterator.make [1, 3, 4, 5, 6] 0 5 (fun n : Nat => n % 2 == 0))).first
        = (Nat.iterate filter_iterator.incr 1
            (filter_iterator.make [1, 3, 4, 5, 6] 0 5 (fun n : Nat => n % 2 == 0))).last ∨
      ∃ x, (Nat.iterate filter_iterator.incr 1
          (filter_iterator.make [1, 3, 4, 5, 6] 0 5 (fun n : Nat => n % 2 == 0))).deref
          = some x ∧ (fun n : Nat => n % 2 == 0) x = true) :=
  ⟨by decide, by decide,
    (C16_filter_position_invariant [1, 3, 4, 5, 6] 0 5 (fun n : Nat => n % 2 == 0)
      (by decide) (by decide) 1).1⟩

/-- C17: with `k` the number of elements of the container that satisfy the
predicate, the iterator reached from `begin()` by `j` increments equals
`end()` exactly when `j` is at least `k` (so after `k` increments and not
before); `begin()` equals `end()` exactly when no element satisfies the
predicate, as in the empty container; and the loop of `to_vector` ends, with
a result, within `k + 1` tests of its condition. -/
theorem C17_filter_traversal_finite {α : Type} (v : filter_view α) :
    (∀ j, (Nat.iterate filter_iterator.incr j v.begin).eq v.end_ = true
      ↔ (v.container.filter v.filter).length ≤ j) ∧
    (v.begin.eq v.end_ = true ↔ ∀ x ∈ v.container, v.filter x = false) ∧
    ((filter_view.mk ([] : List α) v.filter).begin.eq
      (filter_view.mk ([] : List α) v.filter).end_ = true) ∧
    (∀ fuel, (v.container.filter v.filter).length < fuel →
      (v.to_vector fuel).isSome = true) := by
  refine ⟨iterate_eq_end_iff v, ?_, ?_, ?_⟩
  · have h := iterate_eq_end_iff v 0
    simp only [Function.iterate_zero, id_eq, Nat.le_zero, List.length_eq_zero,
      List.filter_eq_nil_iff] at h
    rw [h]
    constructor
    · intro hx x hmem
      cases hp : v.filter x with
      | false => rfl
      | true => exact absurd hp (hx x hmem)
    · intro hx x hmem
      rw [hx x hmem]
      simp
  · rfl
  · intro fuel h
    rw [to_vector_eq v fuel h]
    rfl

/-- C17 at the container 1, 2, 3, 4, 5 and the predicate `even`, with fuel
3. -/
theorem C17_filter_traversal_finite_witness :
    (([1, 2, 3, 4, 5].filter (fun n : Nat => n % 2 == 0)).length < 3) ∧
    ((filter_view.mk [1, 2, 3, 4, 5] (fun n : Nat => n % 2 == 0)).to_vector 3).isSome
      = true :=
  ⟨by decide,
    (C17_filter_traversal_finite
      (filter_view.mk [1, 2, 3, 4, 5] (fun n : Nat => n % 2 == 0))).2.2.2 3 (by decide)⟩

/-! ## The `double` read and the messages of the numeric reads -/

theorem read_double_at {D : Type} (strtod : List Char → D × Nat)
    (pre post : List (List Char)) (t : List Char) :
    (data_reader.mk (pre ++ t :: post) pre.length).read_double strtod
      = if (strtod (strip_separators t)).2 ≠ (strip_separators t).length then
          (Except.error (not_valid t "double"), data_reader.mk (pre ++ t :: post) pre.length)
        else
          (Except.ok (strtod (strip_separators t)).1,
            data_reader.mk (pre ++ t :: post) (pre.length + 1)) := by
  simp only [data_reader.read_double, parts_at_middle, pre_clean_number_eq_strip]

theorem read_bool_at (pre post : List (List Char)) (t : List Char) :
    (data_reader.mk (pre ++ t :: post) pre.length).read_bool
      = match decode_number (from_chars_unsigned size_t_max) t with
        | some v => (Except.ok (v != 0), data_reader.mk (pre ++ t :: post) (pre.length + 1))
        | none => (Except.error (not_valid t "bool"),
            data_reader.mk (pre ++ t :: post) pre.length) := by
  unfold data_reader.read_bool
  rw [read_number_at]
  cases decode_number (from_chars_unsigned size_t_max) t with
  | none => rfl
  | some v => rfl

theorem not_valid_message (t : List Char) (type_name : String) (text : List Char)
    (h : " is not a valid ".toList ++ type_name.toList = text) :
    not_valid t type_name = exception.budget_exception (['"'] ++ t ++ ['"'] ++ text) := by
  unfold not_valid
  rw [← h]
  simp only [List.append_assoc]

/-- C12: a `double` read succeeds only if `strtod` went over every character
of the token with its commas and spaces removed (the value is then the one
`strtod` gave and the cursor moves on by one); whenever it stopped earlier,
the read throws the invalid-format exception and the reader stays as it
was, as for `1.5x` and `12x34` as soon as `strtod` stops before their end. -/
theorem C12_double_whole_token {D : Type} (strtod : List Char → D × Nat)
    (t : List Char) (pre post : List (List Char)) :
    ((strtod (strip_separators t)).2 ≠ (strip_separators t).length →
      (data_reader.mk (pre ++ t :: post) pre.length).read_double strtod
        = (Except.error (not_valid t "double"),
            data_reader.mk (pre ++ t :: post) pre.length)) ∧
    (∀ v r', (data_reader.mk (pre ++ t :: post) pre.length).read_double strtod
        = (Except.ok v, r') →
      (strtod (strip_separators t)).2 = (strip_separators t).length ∧
      v = (strtod (strip_separators t)).1 ∧
      r' = data_reader.mk (pre ++ t :: post) (pre.length + 1)) ∧
    ((strtod "1.5x".toList).2 < 4 →
      (data_reader.mk ["1.5x".toList] 0).read_double strtod
        = (Except.error (not_valid "1.5x".toList "double"),
            data_reader.mk ["1.5x".toList] 0)) ∧
    ((strtod "12x34".toList).2 < 5 →
      (data_reader.mk ["12x34".toList] 0).read_double strtod
        = (Except.error (not_valid "12x34".toList "double"),
            data_reader.mk ["12x34".toList] 0)) := by
  refine ⟨?_, ?_, ?_, ?_⟩
  · intro h
    rw [read_double_at, if_pos h]
  · intro v r' h
    rw [read_double_at] at h
    split at h
    · simp at h
    · rename_i hlen
      simp only [Prod.mk.injEq, Except.ok.injEq] at h
      exact ⟨by simpa using hlen, h.1.symm, h.2.symm⟩
  · intro h
    have := read_double_at strtod [] [] "1.5x".toList
    have hs : strip_separators "1.5x".toList = "1.5x".toList := by decide
    rw [hs] at this
    rw [if_pos (by simp only [String.toList, List.length_cons, List.length_nil] at h ⊢; omega)]
      at this
    exact this
  · intro h
    have := read_double_at strtod [] [] "12x34".toList
    have hs : strip_separators "12x34".toList = "12x34".toList := by decide
    rw [hs] at this
    rw [if_pos (by simp only [String.toList, List.length_cons, List.length_nil] at h ⊢; omega)]
      at this
    exact this

/-- C12 with a `strtod` that reads a run of digits, at the token `1,2x`. -/
theorem C12_double_whole_token_witness :
    ((fun s : List Char => (digits_value (s.takeWhile is_digit), (s.takeWhile is_digit).length))
        (strip_separators "1,2x".toList)).2 ≠ (strip_separators "1,2x".toList).length ∧
    (data_reader.mk ([] ++ "1,2x".toList :: []) ([] : List (List Char)).length).read_double
        (fun s : List Char => (digits_value (s.takeWhile is_digit), (s.takeWhile is_digit).length))
      = (Except.error (not_valid "1,2x".toList "double"),
          data_reader.mk ([] ++ "1,2x".toList :: []) ([] : List (List Char)).length) :=
  ⟨by decide,
    (C12_double_whole_token
      (fun s : List Char => (digits_value (s.takeWhile is_digit), (s.takeWhile is_digit).length))
      "1,2x".toList [] []).1 (by decide)⟩

/-- C13: whenever a numeric read (`bool`, `size_t`, `int64_t`, `int32_t`,
`double`) throws, the message is the token as the reader holds it, commas and
spaces included, between double quotes, followed by ` is not a valid ` and
the name of the type; for the token `1,2x` it quotes `1,2x`, not `12x`. -/
theorem C13_error_quotes_raw_token {D : Type} (strtod : List Char → D × Nat)
    (t : List Char) (pre post : List (List Char)) :
    (∀ e, (data_reader.mk (pre ++ t :: post) pre.length).read_bool.1 = Except.error e →
      e = exception.budget_exception
        (['"'] ++ t ++ ['"'] ++ " is not a valid bool".toList)) ∧
    (∀ e, (data_reader.mk (pre ++ t :: post) pre.length).read_size_t.1 = Except.error e →
      e = exception.budget_exception
        (['"'] ++ t ++ ['"'] ++ " is not a valid size_t".toList)) ∧
    (∀ e, (data_reader.mk (pre ++ t :: post) pre.length).read_int64_t.1 = Except.error e →
      e = exception.budget_exception
        (['"'] ++ t ++ ['"'] ++ " is not a valid int64_t".toList)) ∧
    (∀ e, (data_reader.mk (pre ++ t :: post) pre.length).read_int32_t.1 = Except.error e →
      e = exception.budget_exception
        (['"'] ++ t ++ ['"'] ++ " is not a valid int32_t".toList)) ∧
    (∀ e, ((data_reader.mk (pre ++ t :: post) pre.length).read_double strtod).1
        = Except.error e →
      e = exception.budget_exception
        (['"'] ++ t ++ ['"'] ++ " is not a valid double".toList)) ∧
    (data_reader.mk ["1,2x".toList] 0).read_size_t.1
      = Except.error (exception.budget_exception "\"1,2x\" is not a valid size_t".toList) ∧
    (data_reader.mk ["1,2x".toList] 0).read_bool.1
      = Except.error (exception.budget_exception "\"1,2x\" is not a valid bool".toList) ∧
    (data_reader.mk ["1,2x".toList] 0).read_int64_t.1
      = Except.error (exception.budget_exception "\"1,2x\" is not a valid int64_t".toList) ∧
    (data_reader.mk ["1,2x".toList] 0).read_int32_t.1
      = Except.error (exception.budget_exception "\"1,2x\" is not a valid int32_t".toList) := by
  refine ⟨?_, ?_, ?_, ?_, ?_, rfl, rfl, rfl, rfl⟩
  · intro e h
    rw [read_bool_at] at h
    cases hd : decode_number (from_chars_unsigned size_t_max) t with
    | none => rw [hd] at h; simp only [Except.error.injEq] at h; rw [← h]; exact not_valid_message _ _ _ rfl
    | some v => rw [hd] at h; simp at h
  · intro e h
    simp only [data_reader.read_size_t] at h
    rw [read_number_at] at h
    cases hd : decode_number (from_chars_unsigned size_t_max) t with
    | none => rw [hd] at h; simp only [Except.error.injEq] at h; rw [← h]; exact not_valid_message _ _ _ rfl
    | some v => rw [hd] at h; simp at h
  · intro e h
    simp only [data_reader.read_int64_t] at h
    rw [read_number_at] at h
    cases hd : decode_number (from_chars_signed int64_min int64_max) t with
    | none => rw [hd] at h; simp only [Except.error.injEq] at h; rw [← h]; exact not_valid_message _ _ _ rfl
    | some v => rw [hd] at h; simp at h
  · intro e h
    simp only [data_reader.read_int32_t] at h
    rw [read_number_at] at h
    cases hd : decode_number (from_chars_signed int32_min int32_max) t with
    | none => rw [hd] at h; simp only [Except.error.injEq] at h; rw [← h]; exact not_valid_message _ _ _ rfl
    | some v => rw [hd] at h; simp at h
  · intro e h
    rw [read_double_at] at h
    split at h
    · simp only [Except.error.injEq] at h; rw [← h]; exact not_valid_message _ _ _ rfl
    · simp at h

/-- C13 at the token `1,2x` read as a `size_t`. -/
theorem C13_error_quotes_raw_token_witness :
    (data_reader.mk ([] ++ "1,2x".toList :: []) ([] : List (List Char)).length).read_size_t.1
      = Except.error (not_valid "1,2x".toList "size_t") ∧
    not_valid "1,2x".toList "size_t"
      = exception.budget_exception
          (['"'] ++ "1,2x".toList ++ ['"'] ++ " is not a valid size_t".toList) :=
  ⟨rfl,
    (C13_error_quotes_raw_token (fun _ => ((0 : Nat), 0)) "1,2x".toList [] []).2.1
      (not_valid "1,2x".toList "size_t") rfl⟩

/-- C14 (as stated) fails: the bad token `x` in the first and in the second
field of one record gives one and the same exception, whose message holds the
token and the type and no position. -/
theorem C14_counterexample :
    (data_reader.mk [['x'], ['x']] 0).read_size_t.1
      = Except.error (exception.budget_exception "\"x\" is not a valid size_t".toList) ∧
    (data_reader.mk [['x'], ['x']] 1).read_size_t.1
      = Except.error (exception.budget_exception "\"x\" is not a valid size_t".toList) ∧
    (data_reader.mk [['x'], ['x']] 0).read_size_t.1
      = (data_reader.mk [['x'], ['x']] 1).read_size_t.1 :=
  ⟨rfl, rfl, rfl⟩

/-- C14 (amended): the exception of a rejected token depends on the token and
on the type read only, not on the position: if a numeric read of the token
`t` throws at one position of one record, the read of `t` at any position of
any record throws the same exception. -/
theorem C14_error_without_position {D : Type} (strtod : List Char → D × Nat)
    (t : List Char) (pre post pre' post' : List (List Char)) :
    (∀ e, (data_reader.mk (pre ++ t :: post) pre.length).read_bool.1 = Except.error e →
      (data_reader.mk (pre' ++ t :: post') pre'.length).read_bool.1 = Except.error e) ∧
    (∀ e, (data_reader.mk (pre ++ t :: post) pre.length).read_size_t.1 = Except.error e →
      (data_reader.mk (pre' ++ t :: post') pre'.length).read_size_t.1 = Except.error e) ∧
    (∀ e, (data_reader.mk (pre ++ t :: post) pre.length).read_int64_t.1 = Except.error e →
      (data_reader.mk (pre' ++ t :: post') pre'.length).read_int64_t.1 = Except.error e) ∧
    (∀ e, (data_reader.mk (pre ++ t :: post) pre.length).read_int32_t.1 = Except.error e →
      (data_reader.mk (pre' ++ t :: post') pre'.length).read_int32_t.1 = Except.error e) ∧
    (∀ e, ((data_reader.mk (pre ++ t :: post) pre.length).read_double strtod).1
        = Except.error e →
      ((data_reader.mk (pre' ++ t :: post') pre'.length).read_double strtod).1
        = Except.error e) := by
  refine ⟨?_, ?_, ?_, ?_, ?_⟩
  · intro e h
    rw [read_bool_at] at h ⊢
    cases hd : decode_number (from_chars_unsigned size_t_max) t with
    | none => rw [hd] at h; exact h
    | some v => rw [hd] at h; simp at h
  · intro e h
    simp only [data_reader.read_size_t] at h ⊢
    rw [read_number_at] at h ⊢
    cases hd : decode_number (from_chars_unsigned size_t_max) t with
    | none => rw [hd] at h; exact h
    | some v => rw [hd] at h; simp at h
  · intro e h
    simp only [data_reader.read_int64_t] at h ⊢
    rw [read_number_at] at h ⊢
    cases hd : decode_number (from_chars_signed int64_min int64_max) t with
    | none => rw [hd] at h; exact h
    | some v => rw [hd] at h; simp at h
  · intro e h
    simp only [data_reader.read_int32_t] at h ⊢
    rw [read_number_at] at h ⊢
    cases hd : decode_number (from_chars_signed int32_min int32_max) t with
    | none => rw [hd] at h; exact h
    | some v => rw [hd] at h; simp at h
  · intro e h
    rw [read_double_at] at h ⊢
    split at h
    · rename_i hne
      rw [if_pos hne]
      exact h
    · simp at h

/-- C14 (amended) at the token `1,2x`, first field of one record and third
field of another. -/
theorem C14_error_without_position_witness :
    (data_reader.mk ([] ++ "1,2x".toList :: [['a']]) ([] : List (List Char)).length).read_int32_t.1
      = Except.error (not_valid "1,2x".toList "int32_t") ∧
    (data_reader.mk ([['b'], ['c']] ++ "1,2x".toList :: []) [['b'], ['c']].length).read_int32_t.1
      = Except.error (not_valid "1,2x".toList "int32_t") :=
  ⟨rfl,
    (C14_error_without_position (fun _ => ((0 : Nat), 0)) "1,2x".toList [] [['a']]
      [['b'], ['c']] []).2.2.2.1 (not_valid "1,2x".toList "int32_t") rfl⟩

/-! ## The cursor of the reader -/

theorem read_number_step {α : Type} (from_chars : List Char → from_chars_result α)
    (type_name : String) (r : data_reader) :
    ((read_number from_chars type_name r).1.isOk = true →
      (read_number from_chars type_name r).2 = { r with current := r.current + 1 } ∧
      r.current < r.parts.length) ∧
    ((read_number from_chars type_name r).1.isOk = false →
      (read_number from_chars type_name r).2 = r) := by
  unfold read_number parts_at
  cases hget : r.parts[r.current]? with
  | none => simp [Except.isOk, Except.toBool]
  | some tok =>
    have hlt : r.current < r.parts.length := by
      by_contra hcon
      rw [List.getElem?_eq_none (by omega)] at hget
      simp at hget
    simp only
    split
    · simp [Except.isOk, Except.toBool]
    · split
      · simp [Except.isOk, Except.toBool, hlt]
      · simp [Except.isOk, Except.toBool]

/-- Every typed read that returns moves the cursor on by one, from a position
below the number of fields, and keeps the fields; every typed read that
throws, and `peek()`, leave the reader as it was. -/
theorem call_step {D Dt Mn : Type} (strtod : List Char → D × Nat)
    (date_from_string : List Char → Except exception Dt)
    (money_from_string : List Char → Except exception Mn) (r : data_reader)
    (op : reader_op) (hop : op.is_read = true ∨ op = reader_op.peek) :
    (((r.call strtod date_from_string money_from_string op).1 = true ∧ op.is_read = true) →
      (r.call strtod date_from_string money_from_string op).2
        = { r with current := r.current + 1 } ∧ r.current < r.parts.length) ∧
    (((r.call strtod date_from_string money_from_string op).1 = false ∨ op = reader_op.peek) →
      (r.call strtod date_from_string money_from_string op).2 = r) := by
  cases op with
  | read_bool =>
    have h := read_number_step (from_chars_unsigned size_t_max) "bool" r
    simp only [data_reader.call, data_reader.read_bool]
    cases hr : read_number (from_chars_unsigned size_t_max) "bool" r with
    | mk res r' =>
      rw [hr] at h
      cases res with
      | ok v => simpa [Except.isOk, Except.toBool, reader_op.is_read] using h
      | error e => simpa [Except.isOk, Except.toBool, reader_op.is_read] using h
  | read_size_t =>
    have h := read_number_step (from_chars_unsigned size_t_max) "size_t" r
    simpa [data_reader.call, data_reader.read_size_t, reader_op.is_read] using h
  | read_int64_t =>
    have h := read_number_step (from_chars_signed int64_min int64_max) "int64_t" r
    simpa [data_reader.call, data_reader.read_int64_t, reader_op.is_read] using h
  | read_int32_t =>
    have h := read_number_step (from_chars_signed int32_min int32_max) "int32_t" r
    simpa [data_reader.call, data_reader.read_int32_t, reader_op.is_read] using h
  | read_double =>
    simp only [data_reader.call, data_reader.read_double, parts_at, reader_op.is_read]
    cases hget : r.parts[r.current]? with
    | none => simp [Except.isOk, Except.toBool]
    | some tok =>
      have hlt : r.current < r.parts.length := by
        by_contra hcon
        rw [List.getElem?_eq_none (by omega)] at hget
        simp at hget
      simp only
      split
      · simp [Except.isOk, Except.toBool]
      · simp [Except.isOk, Except.toBool, hlt]
  | read_string =>
    simp only [data_reader.call, data_reader.read_string, parts_at, reader_op.is_read]
    cases hget : r.parts[r.current]? with
    | none => simp [Except.isOk, Except.toBool]
    | some tok =>
      have hlt : r.current < r.parts.length := by
        by_contra hcon
        rw [List.getElem?_eq_none (by omega)] at hget
        simp at hget
      simp [Except.isOk, Except.toBool, hlt]
  | read_date =>
    simp only [data_reader.call, data_reader.read_with, parts_at, reader_op.is_read]
    cases hget : r.parts[r.current]? with
    | none => simp [Except.isOk, Except.toBool]
    | some tok =>
      have hlt : r.current < r.parts.length := by
        by_contra hcon
        rw [List.getElem?_eq_none (by omega)] at hget
        simp at hget
      simp only
      cases date_from_string tok with
      | error e => simp [Except.isOk, Except.toBool]
      | ok v => simp [Except.isOk, Except.toBool, hlt]
  | read_money =>
    simp only [data_reader.call, data_reader.read_with, parts_at, reader_op.is_read]
    cases hget : r.parts[r.current]? with
    | none => simp [Except.isOk, Except.toBool]
    | some tok =>
      have hlt : r.current < r.parts.length := by
        by_contra hcon
        rw [List.getElem?_eq_none (by omega)] at hget
        simp at hget
      simp only
      cases money_from_string tok with
      | error e => simp [Except.isOk, Except.toBool]
      | ok v => simp [Except.isOk, Except.toBool, hlt]
  | peek => simp [data_reader.call, data_reader.peek, reader_op.is_read]
  | more => simp [reader_op.is_read] at hop
  | skip => simp [reader_op.is_read] at hop

theorem call_keeps {D Dt Mn : Type} (strtod : List Char → D × Nat)
    (date_from_string : List Char → Except exception Dt)
    (money_from_string : List Char → Except exception Mn) (r : data_reader)
    (op : reader_op) (h : r.current ≤ r.parts.length) :
    (r.call strtod date_from_string money_from_string op).2.parts = r.parts ∧
    (r.call strtod date_from_string money_from_string op).2.current
      ≤ (r.call strtod date_from_string money_from_string op).2.parts.length := by
  by_cases hop : op.is_read = true ∨ op = reader_op.peek
  · obtain ⟨h1, h2⟩ := call_step strtod date_from_string money_from_string r op hop
    cases hres : (r.call strtod date_from_string money_from_string op).1 with
    | false =>
      rw [h2 (Or.inl hres)]
      exact ⟨rfl, h⟩
    | true =>
      rcases hop with hread | hpeek
      · obtain ⟨e, hlt⟩ := h1 ⟨hres, hread⟩
        rw [e]
        exact ⟨rfl, hlt⟩
      · rw [h2 (Or.inr hpeek)]
        exact ⟨rfl, h⟩
  · cases op with
    | more => exact ⟨rfl, h⟩
    | skip =>
      simp only [data_reader.call, data_reader.skip]
      split
      · rename_i hm
        have hlt : r.current < r.parts.length := by simpa [data_reader.more] using hm
        exact ⟨rfl, hlt⟩
      · exact ⟨rfl, h⟩
    | read_bool => simp [reader_op.is_read] at hop
    | read_size_t => simp [reader_op.is_read] at hop
    | read_int64_t => simp [reader_op.is_read] at hop
    | read_int32_t => simp [reader_op.is_read] at hop
    | read_double => simp [reader_op.is_read] at hop
    | read_string => simp [reader_op.is_read] at hop
    | read_date => simp [reader_op.is_read] at hop
    | read_money => simp [reader_op.is_read] at hop
    | peek => simp at hop

theorem calls_keep {D Dt Mn : Type} (strtod : List Char → D × Nat)
    (date_from_string : List Char → Except exception Dt)
    (money_from_string : List Char → Except exception Mn) :
    ∀ (ops : List reader_op) (r : data_reader), r.current ≤ r.parts.length →
      (data_reader.calls strtod date_from_string money_from_string r ops).parts = r.parts ∧
      (data_reader.calls strtod date_from_string money_from_string r ops).current
        ≤ (data_reader.calls strtod date_from_string money_from_string r ops).parts.length := by
  intro ops
  induction ops with
  | nil => intro r h; exact ⟨rfl, h⟩
  | cons op ops ih =>
    intro r h
    obtain ⟨h1, h2⟩ := call_keeps strtod date_from_string money_from_string r op h
    obtain ⟨h3, h4⟩ := ih _ h2
    simp only [data_reader.calls]
    exact ⟨h3.trans h1, h4⟩

/-- C18: `parse` sets the cursor to 0; in every state `r` reached from it by
any sequence of typed reads, `peek()`, `more()` and `skip()` (exceptions
caught), the fields are those that `parse` made and the cursor is at most
their number; from such a state every typed read that returns moves the
cursor on by exactly one and keeps the fields, every typed read that throws
leaves the reader as it was, as `peek()` and `more()` do, and `skip()` moves
the cursor on by one when `more()` is true and does nothing otherwise. -/
theorem C18_reader_cursor {D Dt Mn : Type} (strtod : List Char → D × Nat)
    (date_from_string : List Char → Except exception Dt)
    (money_from_string : List Char → Except exception Mn)
    (r0 : data_reader) (data : List Char) (ops : List reader_op) (r : data_reader)
    (hr : r = data_reader.calls strtod date_from_string money_from_string
      (r0.parse data) ops) :
    (r0.parse data).current = 0 ∧
    r.parts = (r0.parse data).parts ∧
    r.current ≤ r.parts.length ∧
    (∀ op : reader_op, op.is_read = true →
      (r.call strtod date_from_string money_from_string op).1 = true →
      (r.call strtod date_from_string money_from_string op).2
        = { r with current := r.current + 1 }) ∧
    (∀ op : reader_op, op.is_read = true →
      (r.call strtod date_from_string money_from_string op).1 = false →
      (r.call strtod date_from_string money_from_string op).2 = r) ∧
    (r.call strtod date_from_string money_from_string reader_op.peek).2 = r ∧
    (r.call strtod date_from_string money_from_string reader_op.more).2 = r ∧
    (r.more = true →
      r.call strtod date_from_string money_from_string reader_op.skip
        = (true, { r with current := r.current + 1 })) ∧
    (r.more = false →
      r.call strtod date_from_string money_from_string reader_op.skip = (true, r)) := by
  have h0 : (r0.parse data).current ≤ (r0.parse data).parts.length := Nat.zero_le _
  obtain ⟨h1, h2⟩ := calls_keep strtod date_from_string money_from_string ops _ h0
  rw [← hr] at h1 h2
  refine ⟨rfl, h1, h2, ?_, ?_, rfl, rfl, ?_, ?_⟩
  · intro op hop hres
    exact ((call_step strtod date_from_string money_from_string r op (Or.inl hop)).1
      ⟨hres, hop⟩).1
  · intro op hop hres
    exact (call_step strtod date_from_string money_from_string r op (Or.inl hop)).2
      (Or.inl hres)
  · intro hm
    simp [data_reader.call, data_reader.skip, hm]
  · intro hm
    simp [data_reader.call, data_reader.skip, hm]

/-- C18 at the line `1:x` and the calls: read a `size_t`, read a `size_t`
(which throws on `x`), `skip()`, `skip()`, `peek()`. -/
theorem C18_reader_cursor_witness :
    (data_reader.calls (fun _ => ((0 : Nat), 0)) (fun _ => Except.ok ()) (fun _ => Except.ok ())
        ((data_reader.mk [] 0).parse ['1', ':', 'x'])
        [reader_op.read_size_t, reader_op.read_size_t, reader_op.skip, reader_op.skip,
          reader_op.peek]).current
      ≤ (data_reader.calls (fun _ => ((0 : Nat), 0)) (fun _ => Except.ok ())
          (fun _ => Except.ok ())
          ((data_reader.mk [] 0).parse ['1', ':', 'x'])
          [reader_op.read_size_t, reader_op.read_size_t, reader_op.skip, reader_op.skip,
            reader_op.peek]).parts.length :=
  (C18_reader_cursor (fun _ => ((0 : Nat), 0)) (fun _ => Except.ok ()) (fun _ => Except.ok ())
    (data_reader.mk [] 0) ['1', ':', 'x']
    [reader_op.read_size_t, reader_op.read_size_t, reader_op.skip, reader_op.skip,
      reader_op.peek] _ rfl).2.2.1

/-! ## Stored tokens written back -/

theorem esc_unesc_aux :
    ∀ (n : Nat) (s : List Char), s.length ≤ n → ':' ∉ s → esc (unesc s) = s := by
  intro n
  induction n with
  | zero =>
    intro s hs _
    have : s = [] := List.length_eq_zero.mp (by omega)
    subst this
    rfl
  | succ n ih =>
    intro s hs hno
    cases s with
    | nil => rfl
    | cons c cs =>
      simp only [List.length_cons] at hs
      simp only [List.mem_cons, not_or] at hno
      have hc : ¬ c = ':' := fun e => hno.1 e.symm
      rw [unesc_cons]
      by_cases hp : escape_seq.isPrefixOf (c :: cs) = true
      · rw [if_pos hp]
        obtain ⟨rest, hrest⟩ := List.isPrefixOf_iff_prefix.mp hp
        simp only [escape_seq, List.cons_append, List.nil_append, List.cons.injEq] at hrest
        obtain ⟨hc', hcs⟩ := hrest
        subst hcs
        have hl : rest.length ≤ n := by
          simp only [List.length_cons] at hs; omega
        have hr : ':' ∉ rest := by
          intro hmem
          exact hno.2 (by simp [hmem])
        simp only [List.drop_succ_cons, List.drop_zero, esc, if_true, ih rest hl hr]
        rw [← hc']
        rfl
      · rw [if_neg hp]
        simp only [esc, if_neg hc, ih cs (by omega) hno.2]

/-- C19: for every token without `:`, escaping its unescaped form returns
exactly the token, also when it holds the escape sequence or text that looks
like overlapping escape sequences. -/
theorem C19_resave_stable (s : List Char) (h : ':' ∉ s) :
    parse_output_part (parse_input_part s) = s := by
  rw [parse_input_part_eq, parse_output_part_eq]
  exact esc_unesc_aux s.length s (Nat.le_refl _) h

/-- C19 at the token made of a backslash, `x`, the escape sequence, `3` and
`A`. -/
theorem C19_resave_stable_witness :
    (':' ∉ ['\\', 'x', '\\', 'x', '3', 'A', '3', 'A']) ∧
    parse_output_part (parse_input_part ['\\', 'x', '\\', 'x', '3', 'A', '3', 'A'])
      = ['\\', 'x', '\\', 'x', '3', 'A', '3', 'A'] :=
  ⟨by decide, C19_resave_stable _ (by decide)⟩

/-! ## `bool` tokens -/

/-- C20: a `bool` read returns exactly when a `size_t` read of the same token
returns, and it gives `false` for the number 0 and `true` for every other
number, the cursor moving as for the `size_t`; so `2`, `007` and `1,000` are
read as `true` without error, while writing `true` gives the token `1`, not
the token read. -/
theorem C20_bool_any_unsigned (t : List Char) (pre post : List (List Char)) :
    ((data_reader.mk (pre ++ t :: post) pre.length).read_bool.1.isOk
      = (data_reader.mk (pre ++ t :: post) pre.length).read_size_t.1.isOk) ∧
    (∀ n r', (data_reader.mk (pre ++ t :: post) pre.length).read_size_t = (Except.ok n, r') →
      (data_reader.mk (pre ++ t :: post) pre.length).read_bool = (Except.ok (n != 0), r')) ∧
    (∀ b r', (data_reader.mk (pre ++ t :: post) pre.length).read_bool = (Except.ok b, r') →
      ∃ n, (data_reader.mk (pre ++ t :: post) pre.length).read_size_t = (Except.ok n, r') ∧
        b = (n != 0)) ∧
    (data_reader.mk [['2']] 0).read_bool = (Except.ok true, data_reader.mk [['2']] 1) ∧
    (data_reader.mk ["007".toList] 0).read_bool
      = (Except.ok true, data_reader.mk ["007".toList] 1) ∧
    (data_reader.mk ["1,000".toList] 0).read_bool
      = (Except.ok true, data_reader.mk ["1,000".toList] 1) ∧
    (data_reader.mk [['0', '0']] 0).read_bool = (Except.ok false, data_reader.mk [['0', '0']] 1) ∧
    (data_writer.mk []).write_bool true = Except.ok (data_writer.mk [['1']]) ∧
    ['1'] ≠ ['2'] := by
  refine ⟨?_, ?_, ?_, rfl, rfl, rfl, rfl, ?_, by decide⟩
  · rw [read_bool_at]
    simp only [data_reader.read_size_t]
    rw [read_number_at]
    cases decode_number (from_chars_unsigned size_t_max) t with
    | none => rfl
    | some v => rfl
  · intro n r' h
    rw [read_bool_at]
    simp only [data_reader.read_size_t] at h
    rw [read_number_at] at h
    cases hd : decode_number (from_chars_unsigned size_t_max) t with
    | none => rw [hd] at h; simp at h
    | some v =>
      rw [hd] at h
      simp only [Prod.mk.injEq, Except.ok.injEq] at h
      simp only [h.1, h.2]
  · intro b r' h
    rw [read_bool_at] at h
    simp only [data_reader.read_size_t]
    rw [read_number_at]
    cases hd : decode_number (from_chars_unsigned size_t_max) t with
    | none => rw [hd] at h; simp at h
    | some v =>
      rw [hd] at h
      simp only [Prod.mk.injEq, Except.ok.injEq] at h
      exact ⟨v, by simp only [h.2], h.1.symm⟩
  · show write_number (data_writer.mk []) 1 = _
    rw [write_number_ok _ 1 (by norm_num), decimal_text_one]
    rfl

/-- C20 at the token `1,000` read as a `size_t` and as a `bool`. -/
theorem C20_bool_any_unsigned_witness :
    (data_reader.mk ([] ++ "1,000".toList :: []) ([] : List (List Char)).length).read_size_t
      = (Except.ok 1000, data_reader.mk ["1,000".toList] 1) ∧
    (data_reader.mk ([] ++ "1,000".toList :: []) ([] : List (List Char)).length).read_bool
      = (Except.ok ((1000 : Nat) != 0), data_reader.mk ["1,000".toList] 1) :=
  ⟨rfl,
    (C20_bool_any_unsigned "1,000".toList [] []).2.1 1000
      (data_reader.mk ["1,000".toList] 1) rfl⟩

/-! ## `objective` records -/

theorem decimal_digits_one : decimal_digits 1 = ['1'] := by
  simp only [decimal_digits]
  norm_num
  rfl

theorem decimal_digits_no_delim (n : Nat) : ':' ∉ decimal_digits n := by
  intro h
  have := decimal_digits_all n _ h
  revert this
  decide

/-- C15 fails on the code: the objective with id 1, guid `g`, name `a:b`,
type `t`, source `s` and operator `o` is written as the line
`1:g:a:b:t:s:o:` followed by the amount, `:` and the date, which splits into
nine parts; whatever the renderings of the amount and the date and the
conversions back, an objective read from these parts has the name `a` and the
type `b`, and so is never the objective written. -/
theorem C15_name_with_delimiter {Mn Dt : Type} (money_text : Mn → List Char)
    (date_text : Dt → List Char) (to_number : List Char → Option Nat)
    (parse_money : List Char → Option Mn) (from_string : List Char → Option Dt)
    (amount : Mn) (date : Dt) (fresh : objective Mn Dt) :
    (∃ rest, split ':' (objective.write_line money_text date_text
        (objective.mk 1 ['g'] ['a', ':', 'b'] ['t'] ['s'] ['o'] amount date))
      = ['1'] :: ['g'] :: ['a'] :: ['b'] :: rest) ∧
    (∀ o', objective.read_parts to_number parse_money from_string
        (split ':' (objective.write_line money_text date_text
          (objective.mk 1 ['g'] ['a', ':', 'b'] ['t'] ['s'] ['o'] amount date))) fresh
        = some o' →
      o'.name = ['a'] ∧ o'.type = ['b']) ∧
    objective.read_parts to_number parse_money from_string
        (split ':' (objective.write_line money_text date_text
          (objective.mk 1 ['g'] ['a', ':', 'b'] ['t'] ['s'] ['o'] amount date))) fresh
      ≠ some (objective.mk 1 ['g'] ['a', ':', 'b'] ['t'] ['s'] ['o'] amount date) := by
  have hline : split ':' (objective.write_line money_text date_text
        (objective.mk 1 ['g'] ['a', ':', 'b'] ['t'] ['s'] ['o'] amount date))
      = ['1'] :: ['g'] :: ['a'] :: ['b'] ::
          split ':' (['t', ':', 's', ':', 'o', ':'] ++ money_text amount ++ [':']
            ++ date_text date) := by
    simp only [objective.write_line, decimal_digits_one, List.cons_append, List.nil_append,
      List.append_assoc]
    simp [split]
  have hname : ∀ o', objective.read_parts to_number parse_money from_string
        (split ':' (objective.write_line money_text date_text
          (objective.mk 1 ['g'] ['a', ':', 'b'] ['t'] ['s'] ['o'] amount date))) fresh
        = some o' →
      o'.name = ['a'] ∧ o'.type = ['b'] := by
    intro o' h
    rw [hline] at h
    simp only [objective.read_parts, List.get?_cons_zero, List.get?_cons_succ, Option.bind_eq_bind,
      Option.some_bind, Option.pure_def, Option.bind_eq_some] at h
    obtain ⟨_, _, _, _, _, _, _, _, _, _, h⟩ := h
    simp only [Option.some.injEq] at h
    rw [← h]
    exact ⟨rfl, rfl⟩
  refine ⟨⟨_, hline⟩, hname, ?_⟩
  intro h
  have hbad : (['a', ':', 'b'] : List Char) = ['a'] := (hname _ h).1
  exact absurd hbad (by decide)

/-- Without a `:` in the text fields and in the renderings of the amount and
the date, and with conversions that invert the renderings, the objective read
from the split line is the objective written. -/
theorem objective_roundtrip_without_delim {Mn Dt : Type} (money_text : Mn → List Char)
    (date_text : Dt → List Char) (to_number : List Char → Option Nat)
    (parse_money : List Char → Option Mn) (from_string : List Char → Option Dt)
    (o fresh : objective Mn Dt)
    (hg : ':' ∉ o.guid) (hn : ':' ∉ o.name) (ht : ':' ∉ o.type) (hs : ':' ∉ o.source)
    (ho : ':' ∉ o.op) (hm : ':' ∉ money_text o.amount) (hd : ':' ∉ date_text o.date)
    (h1 : to_number (decimal_digits o.id) = some o.id)
    (h2 : parse_money (money_text o.amount) = some o.amount)
    (h3 : from_string (date_text o.date) = some o.date) :
    objective.read_parts to_number parse_money from_string
      (split ':' (objective.write_line money_text date_text o)) fresh = some o := by
  have hline : split ':' (objective.write_line money_text date_text o)
      = [decimal_digits o.id, o.guid, o.name, o.type, o.source, o.op,
          money_text o.amount, date_text o.date] := by
    simp only [objective.write_line, List.append_assoc, List.singleton_append, List.cons_append,
      List.nil_append]
    rw [split_append_delim _ _ (decimal_digits_no_delim _), split_append_delim _ _ hg,
      split_append_delim _ _ hn, split_append_delim _ _ ht, split_append_delim _ _ hs,
      split_append_delim _ _ ho, split_append_delim _ _ hm, split_no_delim _ hd]
  rw [hline]
  simp only [objective.read_parts, List.get?_cons_zero, List.get?_cons_succ, Option.bind_eq_bind,
    Option.some_bind, Option.pure_def, h1, h2, h3]

/-- C15's failing input with amounts and dates rendered as the empty text and
read back from any text. -/
theorem C15_name_with_delimiter_witness :
    objective.read_parts (fun _ => some 1) (fun _ => some ()) (fun _ => some ())
        (split ':' (objective.write_line (fun _ => []) (fun _ => [])
          (objective.mk 1 ['g'] ['a', ':', 'b'] ['t'] ['s'] ['o'] () ())))
        (objective.mk 0 [] [] [] [] [] () ())
      ≠ some (objective.mk 1 ['g'] ['a', ':', 'b'] ['t'] ['s'] ['o'] () ()) :=
  (C15_name_with_delimiter (fun _ => []) (fun _ => []) (fun _ => some 1) (fun _ => some ())
    (fun _ => some ()) () () (objective.mk 0 [] [] [] [] [] () ())).2.2

/-! ## The empty token -/

theorem not_unsigned_literal_nil : ¬ is_unsigned_literal [] := fun h => h.1 rfl

theorem not_signed_literal_nil : ¬ is_signed_literal [] := by
  rintro (h | ⟨ds, h, _⟩)
  · exact h.1 rfl
  · cases h

/-- C21: when a token is empty once its commas and spaces are removed, a
`double` read returns (a `strtod` that never goes beyond the text it is given
goes over zero of zero characters), with the value `strtod` gives for the
empty text, which is zero, and the cursor one further; the same token read as
`bool`, `size_t`, `int64_t` or `int32_t` throws the invalid-format exception
and leaves the reader as it was.  The empty token, `,` and ` , ` are such
tokens. -/
theorem C21_empty_double_token {D : Type} (strtod : List Char → D × Nat) (zero : D)
    (hwithin : ∀ s, (strtod s).2 ≤ s.length) (hzero : (strtod []).1 = zero)
    (t : List Char) (ht : strip_separators t = []) (pre post : List (List Char)) :
    (data_reader.mk (pre ++ t :: post) pre.length).read_double strtod
      = (Except.ok zero, data_reader.mk (pre ++ t :: post) (pre.length + 1)) ∧
    (data_reader.mk (pre ++ t :: post) pre.length).read_bool
      = (Except.error (not_valid t "bool"), data_reader.mk (pre ++ t :: post) pre.length) ∧
    (data_reader.mk (pre ++ t :: post) pre.length).read_size_t
      = (Except.error (not_valid t "size_t"), data_reader.mk (pre ++ t :: post) pre.length) ∧
    (data_reader.mk (pre ++ t :: post) pre.length).read_int64_t
      = (Except.error (not_valid t "int64_t"), data_reader.mk (pre ++ t :: post) pre.length) ∧
    (data_reader.mk (pre ++ t :: post) pre.length).read_int32_t
      = (Except.error (not_valid t "int32_t"), data_reader.mk (pre ++ t :: post) pre.length) ∧
    strip_separators [] = [] ∧ strip_separators [','] = [] ∧
    strip_separators [' ', ',', ' '] = [] := by
  have hu : ∀ hi, decode_number (from_chars_unsigned hi) t = none := fun hi =>
    decode_unsigned_none hi t (by rw [ht]; exact fun h => not_unsigned_literal_nil h.1)
  have hs : ∀ lo hi, decode_number (from_chars_signed lo hi) t = none := fun lo hi =>
    decode_signed_none lo hi t (by rw [ht]; exact fun h => not_signed_literal_nil h.1)
  refine ⟨?_, ?_, ?_, ?_, ?_, by decide, by decide, by decide⟩
  · rw [read_double_at, ht]
    have h0 : (strtod []).2 = 0 := by
      have := hwithin []
      simpa using this
    rw [if_neg (by rw [h0]; simp), hzero]
  · rw [read_bool_at, hu]
  · simp only [data_reader.read_size_t]
    rw [read_number_at, hu]
  · simp only [data_reader.read_int64_t]
    rw [read_number_at, hs]
  · simp only [data_reader.read_int32_t]
    rw [read_number_at, hs]

/-- C21 at the token ` , `, with a `strtod` that reads a run of digits. -/
theorem C21_empty_double_token_witness :
    (∀ s : List Char, ((fun s : List Char =>
        (digits_value (s.takeWhile is_digit), (s.takeWhile is_digit).length)) s).2 ≤ s.length) ∧
    ((fun s : List Char =>
        (digits_value (s.takeWhile is_digit), (s.takeWhile is_digit).length)) []).1 = 0 ∧
    strip_separators [' ', ',', ' '] = [] ∧
    (data_reader.mk ([] ++ [' ', ',', ' '] :: []) ([] : List (List Char)).length).read_double
        (fun s : List Char => (digits_value (s.takeWhile is_digit), (s.takeWhile is_digit).length))
      = (Except.ok 0,
          data_reader.mk ([] ++ [' ', ',', ' '] :: []) (([] : List (List Char)).length + 1)) :=
  ⟨fun s => (List.takeWhile_prefix is_digit).length_le, rfl, by decide,
    (C21_empty_double_token
      (fun s : List Char => (digits_value (s.takeWhile is_digit), (s.takeWhile is_digit).length))
      0 (fun s => (List.takeWhile_prefix is_digit).length_le) rfl
      [' ', ',', ' '] (by decide) [] []).1⟩

/-! ## `operator++` at the end -/

theorem incr_at_last {α : Type} (it : filter_iterator α) (h : it.first = it.last) :
    it.incr = it := by
  unfold filter_iterator.incr
  rw [if_pos h]

/-- C22: for every `filter_iterator` whose position is the end position
(`first == last`), `operator++` leaves it unchanged, for any number of
increments; so the iterator reached from `end()` by any number of increments
is `end()`, still at the length of the container and equal to `end()`. -/
theorem C22_increment_at_end {α : Type} (it : filter_iterator α) (h : it.first = it.last)
    (n : Nat) :
    Nat.iterate filter_iterator.incr n it = it ∧
    (filter_iterator.mk it.container it.last it.last it.filter).incr
      = filter_iterator.mk it.container it.last it.last it.filter ∧
    (∀ v : filter_view α,
      Nat.iterate filter_iterator.incr n v.end_ = v.end_ ∧
      (Nat.iterate filter_iterator.incr n v.end_).first = v.container.length ∧
      (Nat.iterate filter_iterator.incr n v.end_).eq v.end_ = true) := by
  have hiter : ∀ (x : filter_iterator α), x.first = x.last →
      Nat.iterate filter_iterator.incr n x = x := by
    intro x hx
    induction n with
    | zero => rfl
    | succ n ih => rw [Function.iterate_succ_apply', ih, incr_at_last x hx]
  refine ⟨hiter it h, incr_at_last _ rfl, ?_⟩
  intro v
  have hend : v.end_.first = v.end_.last := end_first v
  rw [hiter v.end_ hend]
  exact ⟨rfl, end_first v, by simp [filter_iterator.eq]⟩

/-- C22 at the end iterator of the container 1, 2 with the predicate `even`,
incremented three times. -/
theorem C22_increment_at_end_witness :
    (filter_iterator.make [1, 2] 2 2 (fun n : Nat => n % 2 == 0)).first
      = (filter_iterator.make [1, 2] 2 2 (fun n : Nat => n % 2 == 0)).last ∧
    Nat.iterate filter_iterator.incr 3
        (filter_iterator.make [1, 2] 2 2 (fun n : Nat => n % 2 == 0))
      = filter_iterator.make [1, 2] 2 2 (fun n : Nat => n % 2 == 0) :=
  ⟨by decide,
    (C22_increment_at_end (filter_iterator.make [1, 2] 2 2 (fun n : Nat => n % 2 == 0))
      (by decide) 3).1⟩

/-! ## Numeric writes never throw -/

theorem write_number_total (w : data_writer) (v : Int) (h : v.natAbs < 2 ^ 64) :
    (decimal_text v).length ≤ 21 ∧ (0 ≤ v → (decimal_text v).length ≤ 20) ∧
    (decimal_text v).length ≤ 64 ∧
    to_chars 64 v = Except.ok (decimal_text v) ∧
    write_number w v = Except.ok { parts := w.parts ++ [decimal_text v] } ∧
    (∀ e, write_number w v ≠ Except.error e) := by
  have h21 := decimal_text_length v h
  refine ⟨h21, ?_, by omega, ?_, write_number_ok w v h, ?_⟩
  · intro hv
    have := decimal_digits_length v.natAbs h
    unfold decimal_text
    rw [if_neg (by omega)]
    exact this
  · unfold to_chars
    rw [if_pos (by omega)]
  · intro e he
    rw [write_number_ok w v h] at he
    cases he

/-- C23: for every `bool`, `size_t`, `int64_t` and `int32_t` value the decimal
text has at most 20 characters, 21 with a sign, which is within the 64
characters of the buffer; `to_chars` then returns that text, the write appends
exactly this one token to the parts, and no exception is thrown. -/
theorem C23_integer_encoding_total (b : Bool) (n : Nat) (i j : Int)
    (hn : n ≤ size_t_max) (hi : int64_min ≤ i ∧ i ≤ int64_max)
    (hj : int32_min ≤ j ∧ j ≤ int32_max) (w : data_writer) :
    ((decimal_text (if b then 1 else 0)).length ≤ 20 ∧
      to_chars 64 (if b then 1 else 0) = Except.ok (decimal_text (if b then 1 else 0)) ∧
      w.write_bool b
        = Except.ok { parts := w.parts ++ [decimal_text (if b then 1 else 0)] } ∧
      ∀ e, w.write_bool b ≠ Except.error e) ∧
    ((decimal_text (n : Int)).length ≤ 20 ∧
      to_chars 64 (n : Int) = Except.ok (decimal_text (n : Int)) ∧
      w.write_size_t n = Except.ok { parts := w.parts ++ [decimal_text (n : Int)] } ∧
      ∀ e, w.write_size_t n ≠ Except.error e) ∧
    ((decimal_text i).length ≤ 21 ∧
      to_chars 64 i = Except.ok (decimal_text i) ∧
      w.write_int64_t i = Except.ok { parts := w.parts ++ [decimal_text i] } ∧
      ∀ e, w.write_int64_t i ≠ Except.error e) ∧
    ((decimal_text j).length ≤ 21 ∧
      to_chars 64 j = Except.ok (decimal_text j) ∧
      w.write_int32_t j = Except.ok { parts := w.parts ++ [decimal_text j] } ∧
      ∀ e, w.write_int32_t j ≠ Except.error e) := by
  simp only [size_t_max, int64_min, int64_max, int32_min, int32_max] at hn hi hj
  refine ⟨?_, ?_, ?_, ?_⟩
  · have hb : ((if b then 1 else 0 : Int)).natAbs < 2 ^ 64 ∧ (0 : Int) ≤ (if b then 1 else 0) := by
      cases b <;> simp
    obtain ⟨_, h20, _, htc, hw, hne⟩ := write_number_total w (if b then 1 else 0) hb.1
    exact ⟨h20 hb.2, htc, hw, hne⟩
  · obtain ⟨_, h20, _, htc, hw, hne⟩ := write_number_total w (n : Int)
      (by simp only [Int.natAbs_ofNat]; omega)
    exact ⟨h20 (by omega), htc, hw, hne⟩
  · obtain ⟨h21, _, _, htc, hw, hne⟩ := write_number_total w i (by omega)
    exact ⟨h21, htc, hw, hne⟩
  · obtain ⟨h21, _, _, htc, hw, hne⟩ := write_number_total w j (by omega)
    exact ⟨h21, htc, hw, hne⟩

/-- C23 at `true`, the largest `size_t`, the smallest `int64_t` and the
smallest `int32_t`, on a fresh writer. -/
theorem C23_integer_encoding_total_witness :
    (18446744073709551615 ≤ size_t_max) ∧
    (int64_min ≤ -9223372036854775808 ∧ (-9223372036854775808 : Int) ≤ int64_max) ∧
    (int32_min ≤ -2147483648 ∧ (-2147483648 : Int) ≤ int32_max) ∧
    ((decimal_text ((18446744073709551615 : Nat) : Int)).length ≤ 20 ∧
      to_chars 64 ((18446744073709551615 : Nat) : Int)
        = Except.ok (decimal_text ((18446744073709551615 : Nat) : Int)) ∧
      (data_writer.mk []).write_size_t 18446744073709551615
        = Except.ok { parts := [] ++ [decimal_text ((18446744073709551615 : Nat) : Int)] } ∧
      ∀ e, (data_writer.mk []).write_size_t 18446744073709551615 ≠ Except.error e) ∧
    ((decimal_text (-9223372036854775808)).length ≤ 21 ∧
      to_chars 64 (-9223372036854775808) = Except.ok (decimal_text (-9223372036854775808)) ∧
      (data_writer.mk []).write_int64_t (-9223372036854775808)
        = Except.ok { parts := [] ++ [decimal_text (-9223372036854775808)] } ∧
      ∀ e, (data_writer.mk []).write_int64_t (-9223372036854775808) ≠ Except.error e) :=
  ⟨by decide, by decide, by decide,
    (C23_integer_encoding_total true 18446744073709551615 (-9223372036854775808) (-2147483648)
      (by decide) (by decide) (by decide) (data_writer.mk [])).2.1,
    (C23_integer_encoding_total true 18446744073709551615 (-9223372036854775808) (-2147483648)
      (by decide) (by decide) (by decide) (data_writer.mk [])).2.2.1⟩

end budget
